import Mathlib

set_option maxHeartbeats 1000000
set_option maxRecDepth 4000

/-! Shallow embedding of `src/analyzer.rs` from the taafl repository: a lexer and
recursive-descent parser for single assignment statements of a Modula-2-like
fragment (`<target> := <expression>;`), with role classification of identifiers
and constants and cursor-style error reporting.

The Rust code works on `input.as_bytes()` and casts each byte to `char`; the
embedding therefore represents the input as a list of byte values (`List Nat`). -/

namespace Taafl

/-! ### Byte-level character classes

`char::is_whitespace` on a byte cast to `char` is true exactly for the bytes
9-13, 32, 133 (NEL) and 160 (NBSP). -/

def isWhitespaceB (b : Nat) : Bool :=
  b == 32 || b == 9 || b == 10 || b == 11 || b == 12 || b == 13 || b == 133 || b == 160

def isDigitB (b : Nat) : Bool := 48 ≤ b && b ≤ 57

def isAlphaB (b : Nat) : Bool := (65 ≤ b && b ≤ 90) || (97 ≤ b && b ≤ 122)

def isAlnumB (b : Nat) : Bool := isAlphaB b || isDigitB b

/-- ASCII uppercasing of one byte, as `str::to_uppercase` acts on the
ASCII-alphanumeric identifier bytes collected by the lexer. -/
def toUpperB (b : Nat) : Nat := if 97 ≤ b && b ≤ 122 then b - 32 else b

def upperBytes (bs : List Nat) : List Nat := bs.map toUpperB

/-- Render a byte list as a string (each byte becomes the character with that
code point; faithful for the ASCII inputs the analyzer is about). -/
def bytesToStr (bs : List Nat) : String := String.mk (bs.map (fun b => Char.ofNat b))

/-- Byte list of an ASCII string literal. -/
def strBytes (s : String) : List Nat := s.data.map (fun c => c.toNat)

/-! ### Tokens and errors (`enum Token`, `enum Error`) -/

/-- `Token` from the source. `endOfInput` is the source's `Token::End`. -/
inductive Token where
  | identifier (s : String)
  | constant (n : Nat)
  | lsquare
  | rsquare
  | comma
  | assign
  | operation (c : Char)
  | semicolon
  | endOfInput
deriving Repr, DecidableEq, BEq

/-- `Error` from the source: `lexErr`, `synErr`, `semErr` are the variants
`LexicalError`, `SyntaxError`, `SemanticError`, each carrying a byte offset and
a message. -/
inductive Error where
  | lexErr (pos : Nat) (msg : String)
  | synErr (pos : Nat) (msg : String)
  | semErr (pos : Nat) (msg : String)
deriving Repr, DecidableEq

def errPos : Error → Nat
  | .lexErr p _ => p
  | .synErr p _ => p
  | .semErr p _ => p

def errMsg : Error → String
  | .lexErr _ m => m
  | .synErr _ m => m
  | .semErr _ m => m

/-- The category prefix `format_error` puts before the message. -/
def errCategory : Error → String
  | .lexErr _ _ => "Лексическая ошибка: "
  | .synErr _ _ => "Синтаксическая ошибка: "
  | .semErr _ _ => "Семантическая ошибка: "

/-! ### Lexer

The Rust `Lexer` holds the full input and a cursor `pos`; the embedding passes
the not-yet-consumed byte suffix together with its starting offset. -/

/-- `Lexer::skip_spaces`: returns the remaining suffix and its offset. -/
def skip_spaces : List Nat → Nat → List Nat × Nat
  | [], pos => ([], pos)
  | b :: bs, pos =>
    if isWhitespaceB b then skip_spaces bs (pos + 1) else (b :: bs, pos)

/-- Decimal value of a digit run (`num_str.parse::<i32>()` succeeds exactly
when this value fits in `i32`, i.e. is at most 2147483647). -/
def digitsVal (ds : List Nat) : Nat := ds.foldl (fun acc d => acc * 10 + (d - 48)) 0

/-- `Lexer::lex_number`: consumes the digit run at the front of `rest`
(which starts at offset `start_pos`) and produces a positioned token or error. -/
def lex_number (rest : List Nat) (start_pos : Nat) : Except Error (Nat × Token) :=
  let ds := rest.takeWhile isDigitB
  let n := digitsVal ds
  if n > 2147483647 then
    .error (.lexErr start_pos ("Невозможно преобразовать в число: " ++ bytesToStr ds))
  else if n < 1 || n > 32767 then
    .error (.semErr start_pos ("Константа вне диапазона [1..32767]: " ++ toString n))
  else
    .ok (start_pos, .constant n)

/-- `Lexer::lex_identifier`: `first_char` was already consumed at `start_pos`;
collects the alphanumeric run after it, uppercases, and checks the length.
Returns the token together with the remaining suffix and its offset. -/
def lex_identifier (first_char : Nat) (rest : List Nat) (start_pos : Nat) :
    Except Error ((Nat × Token) × List Nat × Nat) :=
  let body := rest.takeWhile isAlnumB
  let identStr := bytesToStr ((first_char :: body).map toUpperB)
  if identStr.length > 8 then
    .error (.semErr start_pos ("Идентификатор слишком длинный: " ++ identStr))
  else
    .ok ((start_pos, .identifier identStr), rest.dropWhile isAlnumB, start_pos + 1 + body.length)

/-- The dispatch of `Lexer::next_token` after whitespace skipping: lexes one
token at the front of the remaining suffix `rest` (whose offset is
`start_pos`). -/
def lex_at : List Nat → Nat → Except Error ((Nat × Token) × List Nat × Nat)
  | [], start_pos => .ok ((start_pos, .endOfInput), [], start_pos)
  | c :: cs, start_pos =>
    if isAlphaB c then
      lex_identifier c cs start_pos
    else if isDigitB c then
      let ds := (c :: cs).takeWhile isDigitB
      let rest2 := (c :: cs).dropWhile isDigitB
      let number := lex_number (c :: cs) start_pos
      match rest2.head? with
      | some b =>
        if isAlphaB b then
          .error (.synErr start_pos "Идентификатор не может начинаться с цифры")
        else
          number.map (fun t => (t, rest2, start_pos + ds.length))
      | none => number.map (fun t => (t, rest2, start_pos + ds.length))
    else if c == 91 then .ok ((start_pos, .lsquare), cs, start_pos + 1)
    else if c == 93 then .ok ((start_pos, .rsquare), cs, start_pos + 1)
    else if c == 44 then .ok ((start_pos, .comma), cs, start_pos + 1)
    else if c == 58 then
      if cs.head? == some 61 then .ok ((start_pos, .assign), cs.tail, start_pos + 2)
      else .error (.synErr start_pos "Ожидался \x27=\x27 после \x27:\x27")
    else if c == 59 then .ok ((start_pos, .semicolon), cs, start_pos + 1)
    else if c == 43 || c == 45 || c == 42 || c == 47 || c == 62 || c == 60
        || c == 61 || c == 35 then
      .ok ((start_pos, .operation (Char.ofNat c)), cs, start_pos + 1)
    else
      .error (.synErr start_pos
        ("Недопустимый символ: \x27" ++ String.mk [Char.ofNat c] ++ "\x27"))

/-- `Lexer::next_token` on the remaining input suffix starting at offset `pos`:
skips whitespace, then lexes one token; returns it with the new suffix and
offset. -/
def lexer_next_token (input : List Nat) (pos : Nat) :
    Except Error ((Nat × Token) × List Nat × Nat) :=
  match skip_spaces input pos with
  | (rest, start_pos) => lex_at rest start_pos

/-- The loop body of `Lexer::tokenize`. The fuel is an upper bound on the
number of iterations; every non-end token consumes at least one byte, so
`input.length + 1` is always enough. -/
def tokenize_aux (fuel : Nat) (input : List Nat) (pos : Nat) :
    Except Error (List (Nat × Token)) :=
  match fuel with
  | 0 => .ok []
  | fuel + 1 =>
    match lexer_next_token input pos with
    | .error e => .error e
    | .ok ((p, t), rest, pos2) =>
      if t == .endOfInput then .ok []
      else
        match tokenize_aux fuel rest pos2 with
        | .error e => .error e
        | .ok ts => .ok ((p, t) :: ts)

/-- `Lexer::tokenize`. -/
def tokenize (bs : List Nat) : Except Error (List (Nat × Token)) :=
  tokenize_aux (bs.length + 1) bs 0

/-! ### Parser -/

/-- Models the `usize` computation `input_str.len() - 1` performed by
`Parser::next_token` when the token stream is exhausted: `usize` subtraction
wraps modulo `2 ^ 64` (and panics in builds with overflow checks). -/
def exhaustedPosUpdate (len : Nat) : Nat := (len + 2 ^ 64 - 1) % 2 ^ 64

/-- `struct Parser`. The source stores the whole `input_str : String` but only
ever reads its byte length (`self.input_str.len()`), so the embedding keeps the
length. The five `HashSet`s are modelled as duplicate-free lists in first
insertion order; serialization order is abstracted separately (see `finish`). -/
structure Parser where
  tokens : List (Nat × Token)
  current_pos : Nat
  input_len : Nat
  ids_array : List String
  ids_index : List String
  ids_expr : List String
  const_index : List Nat
  const_expr : List Nat
  left_array_name : Option String
deriving Repr, DecidableEq

/-- `Parser::new`. -/
def Parser.new (tokens : List (Nat × Token)) (input_len : Nat) : Parser :=
  ⟨tokens, 0, input_len, [], [], [], [], [], none⟩

/-- `HashSet::insert` on the list model (keeps first-insertion order). -/
def insertS (l : List String) (s : String) : List String :=
  if s ∈ l then l else l ++ [s]

/-- `HashSet::insert` for constants. -/
def insertN (l : List Nat) (n : Nat) : List Nat :=
  if n ∈ l then l else l ++ [n]

/-- `Parser::next_token`: pops the next token, recording its position in
`current_pos`; on an exhausted stream it performs `input_str.len() - 1`. -/
def Parser.next_token (p : Parser) : Option (Nat × Token) × Parser :=
  match p.tokens with
  | [] => (none, { p with current_pos := exhaustedPosUpdate p.input_len })
  | (pos, t) :: rest => (some (pos, t), { p with tokens := rest, current_pos := pos })

/-- `Parser::expect`. -/
def Parser.expect (p : Parser) (expected : List Token)
    (error_message_some error_message_none : String) : Except Error (Token × Parser) :=
  match p.next_token with
  | (some (_, t), p2) =>
    if expected.contains t then .ok (t, p2)
    else .error (.synErr p2.current_pos error_message_some)
  | (none, p2) =>
    match p2.next_token with
    | (_, p3) => .error (.synErr p3.current_pos error_message_none)

/-- `Parser::parse_identifier`. -/
def Parser.parse_identifier (p : Parser) : Except Error (String × Parser) :=
  match p.next_token with
  | (some (_, .identifier s), p2) => .ok (s, p2)
  | (_, p2) => .error (.synErr p2.current_pos "Ожидался идентификатор")

/-- `Parser::parse_constant`. -/
def Parser.parse_constant (p : Parser) : Except Error (Nat × Parser) :=
  match p.next_token with
  | (some (_, .constant c), p2) => .ok (c, p2)
  | (_, p2) => .error (.synErr p2.current_pos "Ожидалась константа")

/-- `Parser::parse_index`. -/
def Parser.parse_index (p : Parser) : Except Error Parser :=
  match p.tokens.head? with
  | some (_, .identifier _) =>
    match p.parse_identifier with
    | .error e => .error e
    | .ok (s, p2) => .ok { p2 with ids_index := insertS p2.ids_index s }
  | some (_, .constant _) =>
    match p.parse_constant with
    | .error e => .error e
    | .ok (c, p2) => .ok { p2 with const_index := insertN p2.const_index c }
  | some _ =>
    match p.next_token with
    | (_, p2) => .error (.synErr p2.current_pos "Ожидался идентификатор или константа в индексе")
  | none =>
    .error (.synErr p.current_pos "Ожидался индекс, но достигнут конец")

/-- The `while let Some((_, Token::Comma)) = self.peek()` loop of
`Parser::parse_index_list`; each iteration consumes at least two tokens, so
the fuel used at the call site always suffices. -/
def Parser.parse_index_list_aux (fuel : Nat) (p : Parser) : Except Error Parser :=
  match fuel with
  | 0 => .ok p
  | fuel + 1 =>
    match p.tokens.head? with
    | some (_, .comma) =>
      match p.next_token with
      | (_, p2) =>
        match p2.parse_index with
        | .error e => .error e
        | .ok p3 => Parser.parse_index_list_aux fuel p3
    | _ => .ok p

/-- `Parser::parse_index_list`. -/
def Parser.parse_index_list (p : Parser) : Except Error Parser :=
  match p.parse_index with
  | .error e => .error e
  | .ok p2 => Parser.parse_index_list_aux (p2.tokens.length + 1) p2

/-- `Parser::parse_term`, including the semantic check that the identifier is
not the recorded left array name. -/
def Parser.parse_term (p : Parser) : Except Error Parser :=
  match p.tokens.head? with
  | some (_, .identifier _) =>
    match p.parse_identifier with
    | .error e => .error e
    | .ok (s, p2) =>
      match p2.left_array_name with
      | some arr =>
        if s == arr then
          match p2.next_token with
          | (_, _p3) => .error (.semErr p2.current_pos "Нельзя использовать массив в правой части")
        else .ok { p2 with ids_expr := insertS p2.ids_expr s }
      | none => .ok { p2 with ids_expr := insertS p2.ids_expr s }
  | some (_, .constant _) =>
    match p.parse_constant with
    | .error e => .error e
    | .ok (c, p2) => .ok { p2 with const_expr := insertN p2.const_expr c }
  | _ =>
    match p.next_token with
    | (_, p2) => .error (.synErr p2.current_pos "Ожидался идентификатор или константа в правой части")

/-- The `while let Some((_, Token::Operation(_))) = self.peek()` loop of
`Parser::parse_right_part`. -/
def Parser.parse_right_part_aux (fuel : Nat) (p : Parser) : Except Error Parser :=
  match fuel with
  | 0 => .ok p
  | fuel + 1 =>
    match p.tokens.head? with
    | some (_, .operation _) =>
      match p.next_token with
      | (_, p2) =>
        match p2.parse_term with
        | .error e => .error e
        | .ok p3 => Parser.parse_right_part_aux fuel p3
    | _ => .ok p

/-- `Parser::parse_right_part`. -/
def Parser.parse_right_part (p : Parser) : Except Error Parser :=
  match p.parse_term with
  | .error e => .error e
  | .ok p2 => Parser.parse_right_part_aux (p2.tokens.length + 1) p2

/-- `Parser::parse_left_part`. -/
def Parser.parse_left_part (p : Parser) : Except Error Parser :=
  match p.parse_identifier with
  | .error e => .error e
  | .ok (s, p2) =>
    match p2.tokens.head? with
    | some (_, .lsquare) =>
      match p2.next_token with
      | (_, p3) =>
        match { p3 with ids_array := insertS p3.ids_array s,
                        left_array_name := some s }.parse_index_list with
        | .error e => .error e
        | .ok p5 =>
          match p5.expect [Token.rsquare] "Ожидалось \x27]\x27"
              "Ожидалось \x27]\x27, но достигнут конец" with
          | .error e => .error e
          | .ok (_, p6) => .ok p6
    | _ => .ok { p2 with left_array_name := none, ids_expr := insertS p2.ids_expr s }

/-- `Parser::parse`: the whole statement `<left part> := <right part>;`
followed by the trailing-content check. Returns the final parser state. -/
def Parser.parse (p : Parser) : Except Error Parser :=
  match p.parse_left_part with
  | .error e => .error e
  | .ok p1 =>
    match p1.expect [Token.assign] "Ожидалось \x27:=\x27"
        "Ожидалось \x27:=\x27, но достигнут конец" with
    | .error e => .error e
    | .ok (_, p2) =>
      match p2.parse_right_part with
      | .error e => .error e
      | .ok p3 =>
        match p3.expect [Token.semicolon, Token.operation '+']
            "Ожидалось либо \x27;\x27, либо операция"
            "Ожидалось \x27;\x27, но достигнут конец" with
        | .error e => .error e
        | .ok (_, p4) =>
          match p4.next_token with
          | (some _, p5) => .error (.synErr p5.current_pos "После \x27;\x27 ничего не ожидается")
          | (none, p5) => .ok p5

/-! ### Report serialization (`Parser::finish`)

The source iterates `HashSet`s whose iteration order is unspecified and varies
between instances; the embedding abstracts that order as a parameter `ord`
(a legitimate instantiation permutes each list). -/

def idsLines (ord : {α : Type} → List α → List α) (p : Parser) : List String :=
  (ord p.ids_array).map (fun s => s ++ " - идентификатор-массив\n")
    ++ (ord p.ids_index).map (fun s => s ++ " - идентификатор-индекс\n")
    ++ (ord p.ids_expr).map (fun s => s ++ " - идентификатор-выражение\n")

def constsLines (ord : {α : Type} → List α → List α) (p : Parser) : List String :=
  (ord p.const_index).map (fun c => toString c ++ " - константа-индекс\n")
    ++ (ord p.const_expr).map (fun c => toString c ++ " - константа-выражение\n")

/-- `Parser::finish`. -/
def Parser.finish (p : Parser) (ord : {α : Type} → List α → List α) :
    Option String × Option String :=
  if !p.ids_array.isEmpty || !p.ids_index.isEmpty || !p.ids_expr.isEmpty
      || !p.const_index.isEmpty || !p.const_expr.isEmpty then
    (some (String.join (idsLines ord p)), some (String.join (constsLines ord p)))
  else
    (none, none)

/-- The in-source iteration order of the list model (one legitimate hash-set
iteration order). -/
def hashOrd0 : {α : Type} → List α → List α := fun {_} l => l

/-- The reversed iteration order (another legitimate hash-set iteration
order). -/
def hashOrdRev : {α : Type} → List α → List α := fun {_} l => l.reverse

/-! ### Entry point (`analyze_line`) and error formatting -/

/-- Tokenize then parse, returning the final parser state (the part of
`analyze_line` before `finish`/formatting). -/
def analyzeParser (bs : List Nat) : Except Error Parser :=
  match tokenize bs with
  | .error e => .error e
  | .ok ts => Parser.parse (Parser.new ts bs.length)

/-- `analyze_line` up to error formatting: structured error or the two
reports. -/
def analyzeE (ord : {α : Type} → List α → List α) (bs : List Nat) :
    Except Error (Option String × Option String) :=
  match analyzeParser bs with
  | .error e => .error e
  | .ok p => .ok (p.finish ord)

/-- `format_error_with_cursor`. -/
def format_error_with_cursor (input : List Nat) (pos : Nat) (msg : String) : String :=
  bytesToStr input ++ "\n" ++ String.mk (List.replicate (min pos input.length) ' ')
    ++ "^" ++ "\n" ++ msg

/-- `format_error`. -/
def format_error (e : Error) (input : List Nat) : String :=
  format_error_with_cursor input (errPos e) (errCategory e ++ errMsg e)

/-- `analyze_line`. -/
def analyze_line (ord : {α : Type} → List α → List α) (bs : List Nat) :
    Except String (Option String × Option String) :=
  match analyzeE ord bs with
  | .error e => .error (format_error e bs)
  | .ok r => .ok r

/-! ### Vocabulary for stating the grammar-level claims -/

/-- The role sets accumulated by a run of the analyzer (empty on failure);
used to observe in which role categories a name was recorded. -/
def rolesOf (bs : List Nat) :
    List String × List String × List String × List Nat × List Nat :=
  match analyzeParser bs with
  | .ok p => (p.ids_array, p.ids_index, p.ids_expr, p.const_index, p.const_expr)
  | .error _ => ([], [], [], [], [])

/-- An index or expression atom: an identifier or a constant token payload. -/
inductive Atom where
  | id (s : String)
  | num (n : Nat)
deriving Repr, DecidableEq

def atomTok : Atom → Token
  | .id s => .identifier s
  | .num n => .constant n

/-- Token stream of the tail of an index list: `, <index>` repeated, each with
the comma's and the atom's offsets. -/
def idxTailToks : List (Nat × Nat × Atom) → List (Nat × Token)
  | [] => []
  | (cp, ap, a) :: rest => (cp, Token.comma) :: (ap, atomTok a) :: idxTailToks rest

/-- Token stream of the tail of a right part: `<op> <term>` repeated. -/
def rhsTailToks : List ((Nat × Char) × (Nat × Atom)) → List (Nat × Token)
  | [] => []
  | ((po, c), (ap, a)) :: rest =>
    (po, Token.operation c) :: (ap, atomTok a) :: rhsTailToks rest

/-- Identifier names collected from a run of atoms, starting from `acc`, with
the analyzer's set-insertion semantics. -/
def collectIds (acc : List String) : List Atom → List String
  | [] => acc
  | .id s :: rest => collectIds (insertS acc s) rest
  | .num _ :: rest => collectIds acc rest

/-- Constant values collected from a run of atoms. -/
def collectNums (acc : List Nat) : List Atom → List Nat
  | [] => acc
  | .id _ :: rest => collectNums acc rest
  | .num n :: rest => collectNums (insertN acc n) rest

/-- The atoms of an index list given as first item plus comma-separated tail. -/
def atomsOfIdx (i0 : Nat × Atom) (items : List (Nat × Nat × Atom)) : List Atom :=
  i0.2 :: items.map (fun x => x.2.2)

/-- The atoms of a right part given as first term plus operator-separated
tail. -/
def atomsOfRhs (t0 : Nat × Atom) (pairs : List ((Nat × Char) × (Nat × Atom))) : List Atom :=
  t0.2 :: pairs.map (fun x => x.2.2)

/-- A character of a canonicalized identifier: an ASCII digit or an uppercase
ASCII letter. -/
def validIdentChar (c : Char) : Bool :=
  (decide (48 ≤ c.toNat) && decide (c.toNat ≤ 57))
    || (decide (65 ≤ c.toNat) && decide (c.toNat ≤ 90))

/-- A well-formed canonicalized identifier: 1 to 8 characters, all uppercase
ASCII alphanumeric, the first one a letter. -/
def validIdentString (s : String) : Bool :=
  decide (1 ≤ s.length) && decide (s.length ≤ 8)
    && (match s.data.head? with
        | some c => decide (65 ≤ c.toNat) && decide (c.toNat ≤ 90)
        | none => false)
    && s.data.all validIdentChar

/-- Well-formedness of a token as the lexer guarantees it. -/
def wellFormedToken : Token → Prop
  | .identifier s => validIdentString s = true
  | .constant n => 1 ≤ n ∧ n ≤ 32767
  | _ => True

/-- Two optional reports that are joins of permuted line lists. -/
def joinPerm : Option String → Option String → Prop
  | none, none => True
  | some s1, some s2 => ∃ l1 l2, List.Perm l1 l2 ∧ s1 = String.join l1 ∧ s2 = String.join l2
  | _, _ => False

/-- Outcomes of two analyzer runs that agree up to reordering of report
lines: identical on failure, reports line-permutations of each other on
success. -/
def outEquiv : Except String (Option String × Option String) →
    Except String (Option String × Option String) → Prop
  | .error e1, .error e2 => e1 = e2
  | .ok (i1, c1), .ok (i2, c2) => joinPerm i1 i2 ∧ joinPerm c1 c2
  | _, _ => False

deriving instance DecidableEq for Except

/-! ## Theorems -/

/-- C2: the claim that no input can abort is contradicted by the empty input.
The empty string tokenizes to an empty token list, so the parser's very first
`next_token` call takes the exhausted branch and computes
`input_str.len() - 1 = 0 - 1` in `usize`: the subtraction underflows (a panic
under Rust's overflow checks); with wrapping it yields `2 ^ 64 - 1`, which the
error formatter then clamps back to column 0. -/
theorem c2_empty_input_underflow :
    tokenize (strBytes "") = .ok []
    ∧ (Parser.new [] 0).next_token =
        (none, { Parser.new [] 0 with current_pos := exhaustedPosUpdate 0 })
    ∧ exhaustedPosUpdate 0 = 2 ^ 64 - 1
    ∧ analyze_line hashOrd0 (strBytes "") =
        .error "\n^\nСинтаксическая ошибка: Ожидался идентификатор" := by
  refine ⟨rfl, rfl, by decide, rfl⟩

/-- C1 counterexample: the left side is the indexed target `A[1]` and `A`
occurs as a term of the right-hand expression, yet `analyze` fails with a
syntax error at the stray `$` (offset 8) found during tokenization, not with
the array-on-right-hand-side semantic error at the occurrence of `A`
(offset 6): lexing the whole line precedes parsing. -/
theorem c1_counterexample :
    analyzeParser (strBytes "A[1]:=A;$") =
      .error (.synErr 8 "Недопустимый символ: \x27$\x27") := by
  rfl

/-- C3 counterexample: on the grammar-conforming input `A[I]:=I;` the
analysis succeeds, but the identifier `I` is present in two role categories
at once (index and expression), and the constants report is present but is
the empty string. -/
theorem c3_counterexample :
    rolesOf (strBytes "A[I]:=I;") = (["A"], ["I"], ["I"], [], [])
    ∧ "I" ∈ (rolesOf (strBytes "A[I]:=I;")).2.1
    ∧ "I" ∈ (rolesOf (strBytes "A[I]:=I;")).2.2.1
    ∧ analyze_line hashOrd0 (strBytes "A[I]:=I;") =
        .ok (some "A - идентификатор-массив\nI - идентификатор-индекс\nI - идентификатор-выражение\n",
             some "") := by
  refine ⟨rfl, by decide, by decide, rfl⟩

/-- C4 counterexample: the digit run `99999999999` lies outside `[1, 32767]`
but is too large to parse as an `i32`, so `analyze` fails with a lexical
error, not a semantic one; and on `$0` the out-of-range literal `0` is never
reached — the syntax error at the stray `$` (offset 0) preempts the range
check, so the failure is not the semantic error at the literal\x27s offset. -/
theorem c4_counterexample :
    analyzeParser (strBytes "99999999999") =
      .error (.lexErr 0 "Невозможно преобразовать в число: 99999999999")
    ∧ analyzeParser (strBytes "$0") =
      .error (.synErr 0 "Недопустимый символ: \x27$\x27") := by
  exact ⟨rfl, rfl⟩

/-- C6 counterexample: on `X :=` the token stream is exhausted while a term
is required; the last consumed token is `:=` at offset 2, yet the syntax
error is positioned at offset 3 (the input length minus one), so the error
offset is not the starting offset of the last consumed token. -/
theorem c6_counterexample :
    tokenize (strBytes "X :=") = .ok [(0, Token.identifier "X"), (2, Token.assign)]
    ∧ analyzeParser (strBytes "X :=") =
        .error (.synErr 3 "Ожидался идентификатор или константа в правой части")
    ∧ (3 : Nat) ≠ 2 := by
  refine ⟨rfl, rfl, by decide⟩

/-- C7 counterexample: a failing input that itself contains a newline
produces an error string with three newline characters, i.e. four lines,
not exactly three. -/
theorem c7_counterexample :
    analyze_line hashOrd0 (strBytes "?\n?") =
      .error "?\n?\n^\nСинтаксическая ошибка: Недопустимый символ: \x27?\x27"
    ∧ ("?\n?\n^\nСинтаксическая ошибка: Недопустимый символ: \x27?\x27").data.count '\n' = 3 := by
  refine ⟨rfl, by decide⟩

/-- C9 counterexample: the role sets are hash sets whose iteration order is
unspecified and varies between instances; under two legitimate iteration
orders the two runs of the analyzer on `X:=Y+Z;` return different success
report strings, so outputs are not guaranteed identical character for
character. -/
theorem c9_counterexample :
    analyze_line hashOrdRev (strBytes "X:=Y+Z;") ≠ analyze_line hashOrd0 (strBytes "X:=Y+Z;") := by
  decide

/-- C6 (amended): when the parser needs a further token but the stream is
exhausted, the resulting syntax error is positioned at
`input_str.len() - 1` computed in `usize` (wrapping for empty input) — for
`expect`, `parse_identifier` and `parse_term`; only `parse_index` reports
the exhaustion at the last consumed token's offset `current_pos`. -/
theorem c6_exhaustion_offset (p : Parser) (expected : List Token) (m1 m2 : String)
    (h : p.tokens = []) :
    p.expect expected m1 m2 = .error (.synErr (exhaustedPosUpdate p.input_len) m2)
    ∧ p.parse_identifier = .error (.synErr (exhaustedPosUpdate p.input_len) "Ожидался идентификатор")
    ∧ p.parse_constant = .error (.synErr (exhaustedPosUpdate p.input_len) "Ожидалась константа")
    ∧ p.parse_term =
        .error (.synErr (exhaustedPosUpdate p.input_len) "Ожидался идентификатор или константа в правой части")
    ∧ p.parse_index = .error (.synErr p.current_pos "Ожидался индекс, но достигнут конец") := by
  obtain ⟨tk, cp, il, ia, ii, ie, ci, ce, lan⟩ := p
  cases h
  exact ⟨rfl, rfl, rfl, rfl, rfl⟩

/-- C6 witness: the amended statement at a concrete exhausted parser state. -/
theorem c6_exhaustion_offset_witness :
    (Parser.new [] 7).expect [Token.assign] "a" "b" = .error (.synErr 6 "b")
    ∧ (Parser.new [] 7).parse_identifier = .error (.synErr 6 "Ожидался идентификатор")
    ∧ (Parser.new [] 7).parse_constant = .error (.synErr 6 "Ожидалась константа")
    ∧ (Parser.new [] 7).parse_term =
        .error (.synErr 6 "Ожидался идентификатор или константа в правой части")
    ∧ (Parser.new [] 7).parse_index =
        .error (.synErr 0 "Ожидался индекс, но достигнут конец") :=
  c6_exhaustion_offset (Parser.new [] 7) [Token.assign] "a" "b" rfl

/-- C7 (amended): every failing analysis returns the input line, a newline, a
cursor line of `min(offset, input length)` spaces followed by a caret, a
newline, and the error category followed by the description — exactly three
lines whenever the input itself contains no newline. -/
theorem c7_error_format (ord : {α : Type} → List α → List α) (bs : List Nat) (e : Error)
    (h : analyzeParser bs = .error e) :
    analyze_line ord bs =
      .error (bytesToStr bs ++ "\n" ++ String.mk (List.replicate (min (errPos e) bs.length) ' ')
        ++ "^" ++ "\n" ++ (errCategory e ++ errMsg e)) := by
  simp only [analyze_line, analyzeE, h, format_error, format_error_with_cursor]

theorem digit_not_ws {b : Nat} (h : isDigitB b = true) : isWhitespaceB b = false := by
  simp only [isDigitB, Bool.and_eq_true, decide_eq_true_eq] at h
  simp only [isWhitespaceB, Bool.or_eq_false_iff, beq_eq_false_iff_ne, ne_eq]
  omega

theorem digit_not_alpha {b : Nat} (h : isDigitB b = true) : isAlphaB b = false := by
  simp only [isDigitB, Bool.and_eq_true, decide_eq_true_eq] at h
  simp only [isAlphaB, Bool.or_eq_false_iff, Bool.and_eq_false_iff, decide_eq_false_iff_not]
  omega

theorem takeWhile_append_all {p : Nat → Bool} (ds rest : List Nat)
    (h : ∀ b ∈ ds, p b = true) (h2 : ∀ b, rest.head? = some b → p b = false) :
    (ds ++ rest).takeWhile p = ds ∧ (ds ++ rest).dropWhile p = rest := by
  induction ds with
  | nil =>
    simp only [List.nil_append]
    cases rest with
    | nil => exact ⟨rfl, rfl⟩
    | cons b t =>
      have hb := h2 b rfl
      exact ⟨by simp [List.takeWhile_cons, hb], by simp [List.dropWhile_cons, hb]⟩
  | cons d ds ih =>
    have hd : p d = true := h d (by simp)
    have ih2 := ih (fun b hb => h b (by simp [hb]))
    exact ⟨by simp [List.takeWhile_cons, hd, ih2.1], by simp [List.dropWhile_cons, hd, ih2.2]⟩

/-- When the scanner stands at a maximal digit run that is not immediately
followed by an ASCII letter, `Lexer::next_token` propagates whatever error
`lex_number` raises on that run. -/
theorem lexer_next_token_num_err (ds rest : List Nat) (pos : Nat) (e : Error)
    (hne : ds ≠ [])
    (hds : ∀ b ∈ ds, isDigitB b = true)
    (hrest : ∀ b, rest.head? = some b → isDigitB b = false ∧ isAlphaB b = false)
    (hnum : lex_number (ds ++ rest) pos = .error e) :
    lexer_next_token (ds ++ rest) pos = .error e := by
  obtain ⟨d, ds2, rfl⟩ : ∃ d ds2, ds = d :: ds2 := by
    cases ds with
    | nil => exact absurd rfl hne
    | cons d ds2 => exact ⟨d, ds2, rfl⟩
  have hd : isDigitB d = true := hds d (by simp)
  have htake := takeWhile_append_all (p := isDigitB) (d :: ds2) rest hds
    (fun b hb => (hrest b hb).1)
  simp only [lexer_next_token, List.cons_append, skip_spaces, digit_not_ws hd,
    if_false, Bool.false_eq_true]
  simp only [lex_at]
  rw [digit_not_alpha hd]
  rw [if_neg (show ¬ (false = true) by decide)]
  rw [hd, if_pos rfl]
  simp only [List.append_eq]
  rw [← List.cons_append, htake.1, htake.2]
  cases hhead : rest.head? with
  | none =>
    simp only [hhead, hnum, Except.map]
  | some b =>
    have hb := (hrest b hhead).2
    simp only [hhead, hb, Bool.false_eq_true, if_false, hnum, Except.map]

/-- An error raised by the very first `Lexer::next_token` step aborts the
whole analysis with that error: tokenization is all-or-nothing and runs
before parsing. -/
theorem analyzeParser_first_lex_err (bs : List Nat) (e : Error)
    (h : lexer_next_token bs 0 = .error e) : analyzeParser bs = .error e := by
  have htok : tokenize bs = .error e := by
    show tokenize_aux (bs.length + 1) bs 0 = .error e
    simp only [tokenize_aux, h]
  simp only [analyzeParser, htok]

/-- C4 (amended): for an input that begins with a maximal digit run not
immediately followed by an ASCII letter, if the run\x27s value lies outside
`[1, 32767]` then the analysis fails at offset `0`, the literal\x27s starting
offset: with the semantic range error when the value parses as an `i32`
(is at most `2147483647`), and with a lexical conversion error when it is
larger. -/
theorem c4_out_of_range_analyze (ds rest : List Nat)
    (hne : ds ≠ [])
    (hds : ∀ b ∈ ds, isDigitB b = true)
    (hrest : ∀ b, rest.head? = some b → isDigitB b = false ∧ isAlphaB b = false)
    (hout : digitsVal ds < 1 ∨ digitsVal ds > 32767) :
    analyzeParser (ds ++ rest) =
      .error (if digitsVal ds > 2147483647
        then .lexErr 0 ("Невозможно преобразовать в число: " ++ bytesToStr ds)
        else .semErr 0 ("Константа вне диапазона [1..32767]: " ++ toString (digitsVal ds))) := by
  apply analyzeParser_first_lex_err
  apply lexer_next_token_num_err ds rest 0 _ hne hds hrest
  have htake := takeWhile_append_all (p := isDigitB) ds rest hds
    (fun b hb => (hrest b hb).1)
  by_cases hbig : digitsVal ds > 2147483647
  · simp only [if_pos hbig]
    simp only [lex_number, htake.1]
    simp only [if_pos hbig]
  · simp only [if_neg hbig]
    simp only [lex_number, htake.1]
    rw [if_neg hbig]
    rw [if_pos (by simp only [Bool.or_eq_true, decide_eq_true_eq]; omega)]

/-- C4 witness: on the input `0` (a single out-of-range literal in the `i32`
range) the analysis fails with the positioned semantic error. -/
theorem c4_out_of_range_analyze_witness :
    analyzeParser [48] =
      .error (.semErr 0 "Константа вне диапазона [1..32767]: 0") := by
  have h := c4_out_of_range_analyze [48] [] (by decide) (by decide)
    (fun b hb => by simp at hb) (by decide)
  exact h

/-- C7 witness: the amended format statement at a concrete failing input. -/
theorem c7_error_format_witness :
    analyze_line hashOrd0 (strBytes "?") =
      .error ((bytesToStr (strBytes "?") ++ "\n"
        ++ String.mk (List.replicate (min (errPos (.synErr 0 "Недопустимый символ: \x27?\x27")) (strBytes "?").length) ' ')
        ++ "^" ++ "\n" ++ (errCategory (.synErr 0 "Недопустимый символ: \x27?\x27")
        ++ errMsg (.synErr 0 "Недопустимый символ: \x27?\x27")))) :=
  c7_error_format hashOrd0 (strBytes "?") (.synErr 0 "Недопустимый символ: \x27?\x27") rfl


/-! ### Case-insensitivity helpers (C8) -/

theorem toUpperB_ws (b : Nat) : isWhitespaceB (toUpperB b) = isWhitespaceB b := by
  unfold toUpperB
  split
  · next h =>
    simp only [Bool.and_eq_true, decide_eq_true_eq] at h
    have h1 : isWhitespaceB (b - 32) = false := by
      simp only [isWhitespaceB, Bool.or_eq_false_iff, beq_eq_false_iff_ne, ne_eq]
      omega
    have h2 : isWhitespaceB b = false := by
      simp only [isWhitespaceB, Bool.or_eq_false_iff, beq_eq_false_iff_ne, ne_eq]
      omega
    rw [h1, h2]
  · rfl

theorem toUpperB_digit (b : Nat) : isDigitB (toUpperB b) = isDigitB b := by
  unfold toUpperB
  split
  · next h =>
    simp only [Bool.and_eq_true, decide_eq_true_eq] at h
    have h1 : isDigitB (b - 32) = false := by
      simp only [isDigitB, Bool.and_eq_false_iff, decide_eq_false_iff_not]
      omega
    have h2 : isDigitB b = false := by
      simp only [isDigitB, Bool.and_eq_false_iff, decide_eq_false_iff_not]
      omega
    rw [h1, h2]
  · rfl

theorem toUpperB_alpha (b : Nat) : isAlphaB (toUpperB b) = isAlphaB b := by
  unfold toUpperB
  split
  · next h =>
    simp only [Bool.and_eq_true, decide_eq_true_eq] at h
    have h1 : isAlphaB (b - 32) = true := by
      simp only [isAlphaB, Bool.or_eq_true, Bool.and_eq_true, decide_eq_true_eq]
      omega
    have h2 : isAlphaB b = true := by
      simp only [isAlphaB, Bool.or_eq_true, Bool.and_eq_true, decide_eq_true_eq]
      omega
    rw [h1, h2]
  · rfl

theorem toUpperB_alnum (b : Nat) : isAlnumB (toUpperB b) = isAlnumB b := by
  unfold isAlnumB
  rw [toUpperB_alpha, toUpperB_digit]

theorem toUpperB_idem (b : Nat) : toUpperB (toUpperB b) = toUpperB b := by
  unfold toUpperB
  split
  · next h =>
    simp only [Bool.and_eq_true, decide_eq_true_eq] at h
    rw [if_neg]
    simp only [Bool.and_eq_true, decide_eq_true_eq, not_and]
    omega
  · rfl

theorem toUpperB_fix {b : Nat} (h : ¬ (97 ≤ b ∧ b ≤ 122)) : toUpperB b = b := by
  unfold toUpperB
  rw [if_neg]
  simp only [Bool.and_eq_true, decide_eq_true_eq]
  omega

theorem toUpperB_beq (b k : Nat) (hk : k < 65 ∨ (90 < k ∧ k < 97)) :
    (toUpperB b == k) = (b == k) := by
  unfold toUpperB
  split
  · next h =>
    simp only [Bool.and_eq_true, decide_eq_true_eq] at h
    have h1 : (b - 32 == k) = false := by
      simp only [beq_eq_false_iff_ne, ne_eq]
      omega
    have h2 : (b == k) = false := by
      simp only [beq_eq_false_iff_ne, ne_eq]
      omega
    rw [h1, h2]
  · rfl

theorem upperBytes_cons (b : Nat) (l : List Nat) :
    upperBytes (b :: l) = toUpperB b :: upperBytes l := rfl

theorem upperBytes_head (l : List Nat) : (upperBytes l).head? = l.head?.map toUpperB := by
  cases l <;> rfl

theorem upperBytes_tail (l : List Nat) : (upperBytes l).tail = upperBytes l.tail := by
  cases l <;> rfl

theorem upperBytes_len (l : List Nat) : (upperBytes l).length = l.length :=
  List.length_map l toUpperB

theorem upperBytes_takeWhile (p : Nat → Bool) (hp : ∀ b, p (toUpperB b) = p b)
    (l : List Nat) : (upperBytes l).takeWhile p = upperBytes (l.takeWhile p) := by
  have hfun : (p ∘ toUpperB) = p := funext hp
  rw [upperBytes, List.takeWhile_map, hfun]
  rfl

theorem upperBytes_dropWhile (p : Nat → Bool) (hp : ∀ b, p (toUpperB b) = p b)
    (l : List Nat) : (upperBytes l).dropWhile p = upperBytes (l.dropWhile p) := by
  have hfun : (p ∘ toUpperB) = p := funext hp
  rw [upperBytes, List.dropWhile_map, hfun]
  rfl

theorem upperBytes_digits (l : List Nat) (h : ∀ b ∈ l, isDigitB b = true) :
    upperBytes l = l := by
  rw [upperBytes]
  conv_rhs => rw [← List.map_id l]
  apply List.map_congr_left
  intro a ha
  apply toUpperB_fix
  have hd := h a ha
  simp only [isDigitB, Bool.and_eq_true, decide_eq_true_eq] at hd
  omega

theorem skip_spaces_upper (bs : List Nat) (pos : Nat) :
    skip_spaces (upperBytes bs) pos =
      (upperBytes (skip_spaces bs pos).1, (skip_spaces bs pos).2) := by
  induction bs generalizing pos with
  | nil => rfl
  | cons b t ih =>
    rw [upperBytes_cons]
    simp only [skip_spaces, toUpperB_ws]
    by_cases hw : isWhitespaceB b = true
    · rw [if_pos hw, if_pos hw, ih]
    · rw [if_neg hw, if_neg hw, upperBytes_cons]

theorem lex_number_upper (l : List Nat) (sp : Nat) :
    lex_number (upperBytes l) sp = lex_number l sp := by
  unfold lex_number
  rw [upperBytes_takeWhile isDigitB toUpperB_digit,
    upperBytes_digits (l.takeWhile isDigitB) (fun b hb => List.mem_takeWhile_imp hb)]

theorem lex_identifier_upper (c : Nat) (cs : List Nat) (sp : Nat) :
    lex_identifier (toUpperB c) (upperBytes cs) sp =
      (lex_identifier c cs sp).map (fun r => (r.1, upperBytes r.2.1, r.2.2)) := by
  simp only [lex_identifier]
  rw [upperBytes_takeWhile isAlnumB toUpperB_alnum,
    upperBytes_dropWhile isAlnumB toUpperB_alnum]
  have hid : List.map toUpperB (toUpperB c :: upperBytes (cs.takeWhile isAlnumB))
      = List.map toUpperB (c :: cs.takeWhile isAlnumB) := by
    simp only [List.map_cons, toUpperB_idem, upperBytes, List.map_map]
    congr 1
    apply List.map_congr_left
    intro a _
    exact toUpperB_idem a
  rw [hid, upperBytes_len]
  by_cases hlen :
      (bytesToStr (List.map toUpperB (c :: cs.takeWhile isAlnumB))).length > 8
  · rw [if_pos hlen, if_pos hlen]
    rfl
  · rw [if_neg hlen, if_neg hlen]
    rfl

theorem head_upper_beq61 (o : Option Nat) : (o.map toUpperB == some 61) = (o == some 61) := by
  cases o with
  | none => rfl
  | some b => exact toUpperB_beq b 61 (by omega)

theorem lexer_next_token_upper (input : List Nat) (pos : Nat) :
    lexer_next_token (upperBytes input) pos =
      (lexer_next_token input pos).map (fun r => (r.1, upperBytes r.2.1, r.2.2)) := by
  simp only [lexer_next_token]
  rw [skip_spaces_upper]
  cases hsk : skip_spaces input pos with
  | mk rest sp =>
    cases rest with
    | nil => rfl
    | cons c cs =>
      rw [upperBytes_cons]
      simp only [lex_at, toUpperB_alpha, toUpperB_digit]
      by_cases ha : isAlphaB c = true
      · rw [if_pos ha, if_pos ha]
        exact lex_identifier_upper c cs sp
      · rw [if_neg ha, if_neg ha]
        by_cases hd : isDigitB c = true
        · rw [if_pos hd, if_pos hd]
          rw [← upperBytes_cons]
          rw [upperBytes_dropWhile isDigitB toUpperB_digit,
            upperBytes_takeWhile isDigitB toUpperB_digit,
            lex_number_upper, upperBytes_head, upperBytes_len]
          cases hh : ((c :: cs).dropWhile isDigitB).head? with
          | none =>
            simp only [Option.map_none']
            cases hn : lex_number (c :: cs) sp with
            | error e => rfl
            | ok t => rfl
          | some b =>
            simp only [Option.map_some', toUpperB_alpha]
            by_cases hb : isAlphaB b = true
            · rw [if_pos hb, if_pos hb]
              rfl
            · rw [if_neg hb, if_neg hb]
              cases hn : lex_number (c :: cs) sp with
              | error e => rfl
              | ok t => rfl
        · rw [if_neg hd, if_neg hd]
          rw [toUpperB_beq c 91 (by omega)]
          by_cases h91 : (c == 91) = true
          · rw [if_pos h91, if_pos h91]
            rfl
          · rw [if_neg h91, if_neg h91]
            rw [toUpperB_beq c 93 (by omega)]
            by_cases h93 : (c == 93) = true
            · rw [if_pos h93, if_pos h93]
              rfl
            · rw [if_neg h93, if_neg h93]
              rw [toUpperB_beq c 44 (by omega)]
              by_cases h44 : (c == 44) = true
              · rw [if_pos h44, if_pos h44]
                rfl
              · rw [if_neg h44, if_neg h44]
                rw [toUpperB_beq c 58 (by omega)]
                by_cases h58 : (c == 58) = true
                · rw [if_pos h58, if_pos h58]
                  rw [upperBytes_head, head_upper_beq61]
                  by_cases heq : (cs.head? == some 61) = true
                  · rw [if_pos heq, if_pos heq, upperBytes_tail]
                    rfl
                  · rw [if_neg heq, if_neg heq]
                    rfl
                · rw [if_neg h58, if_neg h58]
                  rw [toUpperB_beq c 59 (by omega)]
                  by_cases h59 : (c == 59) = true
                  · rw [if_pos h59, if_pos h59]
                    rfl
                  · rw [if_neg h59, if_neg h59]
                    rw [toUpperB_beq c 43 (by omega), toUpperB_beq c 45 (by omega),
                      toUpperB_beq c 42 (by omega), toUpperB_beq c 47 (by omega),
                      toUpperB_beq c 62 (by omega), toUpperB_beq c 60 (by omega),
                      toUpperB_beq c 61 (by omega), toUpperB_beq c 35 (by omega)]
                    by_cases hop : (c == 43 || c == 45 || c == 42 || c == 47 || c == 62
                        || c == 60 || c == 61 || c == 35) = true
                    · rw [if_pos hop, if_pos hop]
                      have hfix : toUpperB c = c := by
                        apply toUpperB_fix
                        simp only [Bool.or_eq_true, beq_iff_eq] at hop
                        omega
                      rw [hfix]
                      rfl
                    · rw [if_neg hop, if_neg hop]
                      have hfix : toUpperB c = c := by
                        apply toUpperB_fix
                        have ha2 : isAlphaB c = false := by
                          cases hx : isAlphaB c with
                          | false => rfl
                          | true => exact absurd hx ha
                        simp only [isAlphaB, Bool.or_eq_false_iff, Bool.and_eq_false_iff,
                          decide_eq_false_iff_not] at ha2
                        omega
                      rw [hfix]
                      rfl


theorem tokenize_aux_upper (fuel : Nat) :
    ∀ (input : List Nat) (pos : Nat),
      tokenize_aux fuel (upperBytes input) pos = tokenize_aux fuel input pos := by
  induction fuel with
  | zero =>
    intro input pos
    rfl
  | succ f ih =>
    intro input pos
    simp only [tokenize_aux]
    rw [lexer_next_token_upper]
    cases hn : lexer_next_token input pos with
    | error e => rfl
    | ok r =>
      obtain ⟨⟨p, t⟩, rest, pos2⟩ := r
      simp only [Except.map]
      by_cases ht : (t == Token.endOfInput) = true
      · rw [if_pos ht, if_pos ht]
      · rw [if_neg ht, if_neg ht, ih rest pos2]

theorem tokenize_upper (bs : List Nat) : tokenize (upperBytes bs) = tokenize bs := by
  unfold tokenize
  rw [upperBytes_len, tokenize_aux_upper]

/-- C8: the analysis is invariant under ASCII-uppercasing of the input:
identifiers differing only in letter case produce the same token stream, the
same role sets (so case-variant occurrences collapse into the single
canonical entry), the same semantic checks (including the left-array-name
check on the right-hand side) and the same reports. -/
theorem c8_case_insensitive (ord : {α : Type} → List α → List α) (bs : List Nat) :
    tokenize (upperBytes bs) = tokenize bs
    ∧ analyzeParser (upperBytes bs) = analyzeParser bs
    ∧ analyzeE ord (upperBytes bs) = analyzeE ord bs := by
  refine ⟨tokenize_upper bs, ?_, ?_⟩
  · unfold analyzeParser
    rw [tokenize_upper, upperBytes_len]
  · unfold analyzeE analyzeParser
    rw [tokenize_upper, upperBytes_len]


/-! ### Token well-formedness (C10) -/

theorem char_toNat_ofNat (n : Nat) (h : n < 55296) : (Char.ofNat n).toNat = n := by
  unfold Char.ofNat
  rw [dif_pos (Or.inl h)]
  rfl

theorem toUpperB_alpha_range {b : Nat} (h : isAlphaB b = true) :
    65 ≤ toUpperB b ∧ toUpperB b ≤ 90 := by
  simp only [isAlphaB, Bool.or_eq_true, Bool.and_eq_true, decide_eq_true_eq] at h
  unfold toUpperB
  split
  · next h2 =>
    simp only [Bool.and_eq_true, decide_eq_true_eq] at h2
    omega
  · next h2 =>
    simp only [Bool.and_eq_true, decide_eq_true_eq, not_and] at h2
    omega

theorem toUpperB_alnum_range {b : Nat} (h : isAlnumB b = true) :
    (48 ≤ toUpperB b ∧ toUpperB b ≤ 57) ∨ (65 ≤ toUpperB b ∧ toUpperB b ≤ 90) := by
  simp only [isAlnumB, Bool.or_eq_true] at h
  cases h with
  | inl h => exact Or.inr (toUpperB_alpha_range h)
  | inr h =>
    simp only [isDigitB, Bool.and_eq_true, decide_eq_true_eq] at h
    left
    rw [toUpperB_fix (by omega)]
    omega

theorem validIdent_of_lex (c : Nat) (body : List Nat) (ha : isAlphaB c = true)
    (hbody : ∀ b ∈ body, isAlnumB b = true)
    (hlen : ¬ (bytesToStr (List.map toUpperB (c :: body))).length > 8) :
    validIdentString (bytesToStr (List.map toUpperB (c :: body))) = true := by
  have hdata : (bytesToStr (List.map toUpperB (c :: body))).data
      = (List.map toUpperB (c :: body)).map (fun b => Char.ofNat b) := rfl
  have hlen2 : (bytesToStr (List.map toUpperB (c :: body))).length
      = body.length + 1 := by
    show (String.mk ((List.map toUpperB (c :: body)).map (fun b => Char.ofNat b))).length
      = body.length + 1
    simp [String.length_mk]
  simp only [validIdentString, Bool.and_eq_true, decide_eq_true_eq]
  refine ⟨⟨⟨by omega, by omega⟩, ?_⟩, ?_⟩
  · rw [hdata]
    simp only [List.map_cons, List.head?_cons, Option.some.injEq]
    have hr := toUpperB_alpha_range ha
    rw [char_toNat_ofNat (toUpperB c) (by omega)]
    simp only [Bool.and_eq_true, decide_eq_true_eq]
    exact ⟨by omega, by omega⟩
  · rw [hdata, List.map_map]
    rw [List.all_eq_true]
    intro ch hch
    obtain ⟨b1, hb1, rfl⟩ := List.mem_map.mp hch
    have halnum : isAlnumB b1 = true := by
      rcases List.mem_cons.mp hb1 with h1 | h1
      · subst h1
        simp only [isAlnumB, Bool.or_eq_true]
        exact Or.inl ha
      · exact hbody b1 h1
    have hr := toUpperB_alnum_range halnum
    simp only [validIdentChar, Bool.or_eq_true, Bool.and_eq_true, decide_eq_true_eq,
      Function.comp_apply]
    rw [char_toNat_ofNat (toUpperB b1) (by omega)]
    omega

theorem lexer_next_token_wf (input : List Nat) (pos p : Nat) (t : Token)
    (rest : List Nat) (pos2 : Nat)
    (h : lexer_next_token input pos = .ok ((p, t), rest, pos2)) :
    wellFormedToken t := by
  simp only [lexer_next_token] at h
  cases hsk : skip_spaces input pos with
  | mk r sp =>
    rw [hsk] at h
    dsimp only at h
    cases r with
    | nil =>
      simp only [lex_at, Except.ok.injEq, Prod.mk.injEq] at h
      obtain ⟨⟨hp, ht⟩, hr, hp2⟩ := h
      subst ht
      trivial
    | cons c cs =>
      simp only [lex_at] at h
      by_cases ha : isAlphaB c = true
      · rw [if_pos ha] at h
        simp only [lex_identifier] at h
        split at h
        · exact absurd h (by simp)
        · next hlen =>
          simp only [Except.ok.injEq, Prod.mk.injEq] at h
          obtain ⟨⟨hp, ht⟩, hr, hp2⟩ := h
          subst ht
          simp only [wellFormedToken]
          exact validIdent_of_lex c (cs.takeWhile isAlnumB) ha
            (fun b hb => List.mem_takeWhile_imp hb) hlen
      · rw [if_neg ha] at h
        by_cases hd : isDigitB c = true
        · rw [if_pos hd] at h
          have hnum : ∀ (pp : Nat) (tt : Token), lex_number (c :: cs) sp = .ok (pp, tt) →
              wellFormedToken tt := by
            intro pp tt hn
            simp only [lex_number] at hn
            split at hn
            · exact absurd hn (by simp)
            · split at hn
              · exact absurd hn (by simp)
              · next hgt hrange =>
                simp only [Except.ok.injEq, Prod.mk.injEq] at hn
                obtain ⟨hpp, htt⟩ := hn
                subst htt
                simp only [Bool.or_eq_true, decide_eq_true_eq, not_or, not_lt] at hrange
                simp only [wellFormedToken]
                omega
          cases hh : ((c :: cs).dropWhile isDigitB).head? with
          | none =>
            rw [hh] at h
            dsimp only at h
            cases hn : lex_number (c :: cs) sp with
            | error e =>
              rw [hn] at h
              exact absurd h (by simp [Except.map])
            | ok v =>
              rw [hn] at h
              obtain ⟨pp, tt⟩ := v
              simp only [Except.map, Except.ok.injEq, Prod.mk.injEq] at h
              obtain ⟨⟨hp, ht⟩, hr, hp2⟩ := h
              subst ht
              exact hnum pp tt hn
          | some b =>
            rw [hh] at h
            dsimp only at h
            by_cases hb : isAlphaB b = true
            · rw [if_pos hb] at h
              exact absurd h (by simp)
            · rw [if_neg hb] at h
              cases hn : lex_number (c :: cs) sp with
              | error e =>
                rw [hn] at h
                exact absurd h (by simp [Except.map])
              | ok v =>
                rw [hn] at h
                obtain ⟨pp, tt⟩ := v
                simp only [Except.map, Except.ok.injEq, Prod.mk.injEq] at h
                obtain ⟨⟨hp, ht⟩, hr, hp2⟩ := h
                subst ht
                exact hnum pp tt hn
        · rw [if_neg hd] at h
          by_cases h91 : (c == 91) = true
          · rw [if_pos h91] at h
            simp only [Except.ok.injEq, Prod.mk.injEq] at h
            obtain ⟨⟨hp, ht⟩, hr, hp2⟩ := h
            subst ht
            trivial
          · rw [if_neg h91] at h
            by_cases h93 : (c == 93) = true
            · rw [if_pos h93] at h
              simp only [Except.ok.injEq, Prod.mk.injEq] at h
              obtain ⟨⟨hp, ht⟩, hr, hp2⟩ := h
              subst ht
              trivial
            · rw [if_neg h93] at h
              by_cases h44 : (c == 44) = true
              · rw [if_pos h44] at h
                simp only [Except.ok.injEq, Prod.mk.injEq] at h
                obtain ⟨⟨hp, ht⟩, hr, hp2⟩ := h
                subst ht
                trivial
              · rw [if_neg h44] at h
                by_cases h58 : (c == 58) = true
                · rw [if_pos h58] at h
                  by_cases heq : (cs.head? == some 61) = true
                  · rw [if_pos heq] at h
                    simp only [Except.ok.injEq, Prod.mk.injEq] at h
                    obtain ⟨⟨hp, ht⟩, hr, hp2⟩ := h
                    subst ht
                    trivial
                  · rw [if_neg heq] at h
                    exact absurd h (by simp)
                · rw [if_neg h58] at h
                  by_cases h59 : (c == 59) = true
                  · rw [if_pos h59] at h
                    simp only [Except.ok.injEq, Prod.mk.injEq] at h
                    obtain ⟨⟨hp, ht⟩, hr, hp2⟩ := h
                    subst ht
                    trivial
                  · rw [if_neg h59] at h
                    by_cases hop : (c == 43 || c == 45 || c == 42 || c == 47 || c == 62
                        || c == 60 || c == 61 || c == 35) = true
                    · rw [if_pos hop] at h
                      simp only [Except.ok.injEq, Prod.mk.injEq] at h
                      obtain ⟨⟨hp, ht⟩, hr, hp2⟩ := h
                      subst ht
                      trivial
                    · rw [if_neg hop] at h
                      exact absurd h (by simp)

theorem tokenize_aux_wf (fuel : Nat) :
    ∀ (input : List Nat) (pos : Nat) (ts : List (Nat × Token)),
      tokenize_aux fuel input pos = .ok ts → ∀ x ∈ ts, wellFormedToken x.2 := by
  induction fuel with
  | zero =>
    intro input pos ts h x hx
    simp only [tokenize_aux] at h
    injection h with h2
    subst h2
    exact absurd hx (by simp)
  | succ f ih =>
    intro input pos ts h x hx
    simp only [tokenize_aux] at h
    cases hn : lexer_next_token input pos with
    | error e =>
      rw [hn] at h
      exact absurd h (by simp)
    | ok r =>
      obtain ⟨⟨p, t⟩, rest, pos2⟩ := r
      rw [hn] at h
      dsimp only at h
      by_cases ht : (t == Token.endOfInput) = true
      · rw [if_pos ht] at h
        injection h with h2
        subst h2
        exact absurd hx (by simp)
      · rw [if_neg ht] at h
        cases hrec : tokenize_aux f rest pos2 with
        | error e =>
          rw [hrec] at h
          exact absurd h (by simp)
        | ok ts2 =>
          rw [hrec] at h
          injection h with h2
          subst h2
          rcases List.mem_cons.mp hx with h1 | h1
          · subst h1
            exact lexer_next_token_wf input pos p t rest pos2 hn
          · exact ih rest pos2 ts2 hrec x h1

/-- C10: whenever `tokenize` succeeds, every token in the returned sequence is
well-formed: identifiers are 1-8 uppercase ASCII alphanumeric characters
starting with a letter, and constants lie in `[1, 32767]`; no later pass can
observe a malformed identifier or an out-of-range constant. -/
theorem c10_tokens_wellformed (bs : List Nat) (ts : List (Nat × Token))
    (h : tokenize bs = .ok ts) : ∀ x ∈ ts, wellFormedToken x.2 :=
  tokenize_aux_wf (bs.length + 1) bs 0 ts h

/-- C10 witness: the invariant applied to the token stream of `X := 1;`. -/
theorem c10_tokens_wellformed_witness :
    wellFormedToken (Token.identifier "X") ∧ wellFormedToken (Token.constant 1) :=
  ⟨c10_tokens_wellformed (strBytes "X := 1;")
      [(0, Token.identifier "X"), (2, Token.assign), (5, Token.constant 1), (6, Token.semicolon)]
      rfl (0, Token.identifier "X") (List.Mem.head _),
    c10_tokens_wellformed (strBytes "X := 1;")
      [(0, Token.identifier "X"), (2, Token.assign), (5, Token.constant 1), (6, Token.semicolon)]
      rfl (5, Token.constant 1) (List.Mem.tail _ (List.Mem.tail _ (List.Mem.head _)))⟩


/-! ### Report-order equivalence (C9) -/

theorem ordmap_perm (ord1 ord2 : {α : Type} → List α → List α)
    (h1 : ∀ (α : Type) (l : List α), List.Perm (ord1 l) l)
    (h2 : ∀ (α : Type) (l : List α), List.Perm (ord2 l) l)
    {α β : Type} (l : List α) (f : α → β) :
    List.Perm ((ord1 l).map f) ((ord2 l).map f) :=
  ((h1 α l).map f).trans (((h2 α l).map f).symm)

theorem idsLines_perm (ord1 ord2 : {α : Type} → List α → List α)
    (h1 : ∀ (α : Type) (l : List α), List.Perm (ord1 l) l)
    (h2 : ∀ (α : Type) (l : List α), List.Perm (ord2 l) l) (p : Parser) :
    List.Perm (idsLines ord1 p) (idsLines ord2 p) := by
  unfold idsLines
  exact List.Perm.append
    (List.Perm.append (ordmap_perm ord1 ord2 h1 h2 p.ids_array _)
      (ordmap_perm ord1 ord2 h1 h2 p.ids_index _))
    (ordmap_perm ord1 ord2 h1 h2 p.ids_expr _)

theorem constsLines_perm (ord1 ord2 : {α : Type} → List α → List α)
    (h1 : ∀ (α : Type) (l : List α), List.Perm (ord1 l) l)
    (h2 : ∀ (α : Type) (l : List α), List.Perm (ord2 l) l) (p : Parser) :
    List.Perm (constsLines ord1 p) (constsLines ord2 p) := by
  unfold constsLines
  exact List.Perm.append (ordmap_perm ord1 ord2 h1 h2 p.const_index _)
    (ordmap_perm ord1 ord2 h1 h2 p.const_expr _)

/-- C9 (amended): the analyzer carries no state between calls — on the same
input, two runs agree exactly on failure outputs and agree on success
reports up to a permutation of each report's lines; character-for-character
equality of success reports is not guaranteed because the role sets are hash
sets iterated in an unspecified, per-instance order (modelled by the `ord`
parameters, each a permutation-valid iteration order). -/
theorem c9_order_equivalence (ord1 ord2 : {α : Type} → List α → List α)
    (h1 : ∀ (α : Type) (l : List α), List.Perm (ord1 l) l)
    (h2 : ∀ (α : Type) (l : List α), List.Perm (ord2 l) l)
    (bs : List Nat) : outEquiv (analyze_line ord1 bs) (analyze_line ord2 bs) := by
  unfold analyze_line analyzeE
  cases hp : analyzeParser bs with
  | error e =>
    exact rfl
  | ok p =>
    dsimp only
    unfold Parser.finish
    by_cases hcond : (!p.ids_array.isEmpty || !p.ids_index.isEmpty || !p.ids_expr.isEmpty
        || !p.const_index.isEmpty || !p.const_expr.isEmpty) = true
    · rw [if_pos hcond, if_pos hcond]
      exact ⟨⟨idsLines ord1 p, idsLines ord2 p,
          idsLines_perm ord1 ord2 h1 h2 p, rfl, rfl⟩,
        ⟨constsLines ord1 p, constsLines ord2 p,
          constsLines_perm ord1 ord2 h1 h2 p, rfl, rfl⟩⟩
    · rw [if_neg hcond, if_neg hcond]
      exact ⟨trivial, trivial⟩

/-- C9 witness: the amended equivalence applied with the identity iteration
order on both sides at a concrete input. -/
theorem c9_order_equivalence_witness :
    outEquiv (analyze_line hashOrd0 (strBytes "X:=Y;")) (analyze_line hashOrd0 (strBytes "X:=Y;")) :=
  c9_order_equivalence hashOrd0 hashOrd0 (fun _ l => List.Perm.refl l)
    (fun _ l => List.Perm.refl l) (strBytes "X:=Y;")


/-! ### Parser step lemmas -/

theorem parse_identifier_cons (p : Parser) (q : Nat) (s : String)
    (rest : List (Nat × Token)) (h : p.tokens = (q, Token.identifier s) :: rest) :
    p.parse_identifier = .ok (s, { p with tokens := rest, current_pos := q }) := by
  simp only [Parser.parse_identifier, Parser.next_token, h]

theorem parse_constant_cons (p : Parser) (q n : Nat)
    (rest : List (Nat × Token)) (h : p.tokens = (q, Token.constant n) :: rest) :
    p.parse_constant = .ok (n, { p with tokens := rest, current_pos := q }) := by
  simp only [Parser.parse_constant, Parser.next_token, h]

theorem expect_cons (p : Parser) (q : Nat) (t : Token) (rest : List (Nat × Token))
    (exp : List Token) (m1 m2 : String)
    (h : p.tokens = (q, t) :: rest) (hc : exp.contains t = true) :
    p.expect exp m1 m2 = .ok (t, { p with tokens := rest, current_pos := q }) := by
  simp only [Parser.expect, Parser.next_token, h, hc, if_true]

theorem parse_term_id (p : Parser) (q : Nat) (s : String) (rest : List (Nat × Token))
    (h : p.tokens = (q, Token.identifier s) :: rest)
    (hsafe : p.left_array_name ≠ some s) :
    p.parse_term = .ok { p with
      tokens := rest
      current_pos := q
      ids_expr := insertS p.ids_expr s } := by
  simp only [Parser.parse_term, h, List.head?_cons]
  rw [parse_identifier_cons p q s rest h]
  cases hl : p.left_array_name with
  | none => rfl
  | some arr =>
    have hne : (s == arr) = false := by
      simp only [beq_eq_false_iff_ne, ne_eq]
      intro hcontra
      subst hcontra
      exact hsafe hl
    simp only [hne, Bool.false_eq_true, if_false]

theorem parse_term_num (p : Parser) (q n : Nat) (rest : List (Nat × Token))
    (h : p.tokens = (q, Token.constant n) :: rest) :
    p.parse_term = .ok { p with
      tokens := rest
      current_pos := q
      const_expr := insertN p.const_expr n } := by
  simp only [Parser.parse_term, h, List.head?_cons]
  rw [parse_constant_cons p q n rest h]

theorem parse_term_offend (p : Parser) (q : Nat) (a : String) (rest : List (Nat × Token))
    (h : p.tokens = (q, Token.identifier a) :: rest)
    (hl : p.left_array_name = some a) :
    p.parse_term = .error (.semErr q "Нельзя использовать массив в правой части") := by
  simp only [Parser.parse_term, h, List.head?_cons]
  rw [parse_identifier_cons p q a rest h]
  simp only [hl, beq_self_eq_true, if_true]

theorem parse_index_id (p : Parser) (q : Nat) (s : String) (rest : List (Nat × Token))
    (h : p.tokens = (q, Token.identifier s) :: rest) :
    p.parse_index = .ok { p with
      tokens := rest
      current_pos := q
      ids_index := insertS p.ids_index s } := by
  simp only [Parser.parse_index, h, List.head?_cons]
  rw [parse_identifier_cons p q s rest h]

theorem parse_index_num (p : Parser) (q n : Nat) (rest : List (Nat × Token))
    (h : p.tokens = (q, Token.constant n) :: rest) :
    p.parse_index = .ok { p with
      tokens := rest
      current_pos := q
      const_index := insertN p.const_index n } := by
  simp only [Parser.parse_index, h, List.head?_cons]
  rw [parse_constant_cons p q n rest h]


theorem idxTailToks_len (items : List (Nat × Nat × Atom)) :
    (idxTailToks items).length = 2 * items.length := by
  induction items with
  | nil => rfl
  | cons x rest ih =>
    obtain ⟨cp, ap, a⟩ := x
    simp only [idxTailToks, List.length_cons, ih]
    omega

theorem parse_index_list_aux_spec (items : List (Nat × Nat × Atom)) :
    ∀ (fuel : Nat) (tk : List (Nat × Token)) (cp0 il : Nat) (ia ii ie : List String)
      (ci ce : List Nat) (lan : Option String) (rest : List (Nat × Token)),
      tk = idxTailToks items ++ rest →
      (∀ q, rest.head? ≠ some (q, Token.comma)) →
      items.length ≤ fuel →
      ∃ cpf, Parser.parse_index_list_aux fuel ⟨tk, cp0, il, ia, ii, ie, ci, ce, lan⟩ =
        .ok ⟨rest, cpf, il, ia,
          collectIds ii (items.map (fun x => x.2.2)),
          ie, collectNums ci (items.map (fun x => x.2.2)), ce, lan⟩ := by
  induction items with
  | nil =>
    intro fuel tk cp0 il ia ii ie ci ce lan rest ht hrest hfuel
    simp only [idxTailToks, List.nil_append] at ht
    subst ht
    refine ⟨cp0, ?_⟩
    cases fuel with
    | zero => rfl
    | succ f =>
      simp only [Parser.parse_index_list_aux]
      cases hht : tk.head? with
      | none => rfl
      | some x =>
        obtain ⟨q, t⟩ := x
        cases t with
        | comma => exact absurd hht (hrest q)
        | identifier s => rfl
        | constant n => rfl
        | lsquare => rfl
        | rsquare => rfl
        | assign => rfl
        | operation c => rfl
        | semicolon => rfl
        | endOfInput => rfl
  | cons x items ih =>
    obtain ⟨cp, ap, a⟩ := x
    intro fuel tk cp0 il ia ii ie ci ce lan rest ht hrest hfuel
    simp only [idxTailToks, List.cons_append] at ht
    subst ht
    cases fuel with
    | zero => simp at hfuel
    | succ f =>
      simp only [Parser.parse_index_list_aux, List.head?_cons, Parser.next_token]
      cases a with
      | id s =>
        rw [parse_index_id _ ap s (idxTailToks items ++ rest) rfl]
        obtain ⟨cpf, hres⟩ := ih f (idxTailToks items ++ rest) ap il ia (insertS ii s) ie
          ci ce lan rest rfl hrest (by simp only [List.length_cons] at hfuel; omega)
        exact ⟨cpf, hres⟩
      | num n =>
        rw [parse_index_num _ ap n (idxTailToks items ++ rest) rfl]
        obtain ⟨cpf, hres⟩ := ih f (idxTailToks items ++ rest) ap il ia ii ie
          (insertN ci n) ce lan rest rfl hrest (by simp only [List.length_cons] at hfuel; omega)
        exact ⟨cpf, hres⟩


theorem rhsTailToks_len (pairs : List ((Nat × Char) × (Nat × Atom))) :
    (rhsTailToks pairs).length = 2 * pairs.length := by
  induction pairs with
  | nil => rfl
  | cons x rest ih =>
    obtain ⟨⟨po, c⟩, ap, a⟩ := x
    simp only [rhsTailToks, List.length_cons, ih]
    omega

theorem parse_right_part_aux_spec (pairs : List ((Nat × Char) × (Nat × Atom))) :
    ∀ (fuel : Nat) (tk : List (Nat × Token)) (cp0 il : Nat) (ia ii ie : List String)
      (ci ce : List Nat) (lan : Option String) (rest : List (Nat × Token)),
      tk = rhsTailToks pairs ++ rest →
      (∀ q c, rest.head? ≠ some (q, Token.operation c)) →
      (∀ s, Atom.id s ∈ pairs.map (fun x => x.2.2) → lan ≠ some s) →
      pairs.length ≤ fuel →
      ∃ cpf, Parser.parse_right_part_aux fuel ⟨tk, cp0, il, ia, ii, ie, ci, ce, lan⟩ =
        .ok ⟨rest, cpf, il, ia, ii,
          collectIds ie (pairs.map (fun x => x.2.2)),
          ci, collectNums ce (pairs.map (fun x => x.2.2)), lan⟩ := by
  induction pairs with
  | nil =>
    intro fuel tk cp0 il ia ii ie ci ce lan rest ht hrest hsafe hfuel
    simp only [rhsTailToks, List.nil_append] at ht
    subst ht
    refine ⟨cp0, ?_⟩
    cases fuel with
    | zero => rfl
    | succ f =>
      simp only [Parser.parse_right_part_aux]
      cases hht : tk.head? with
      | none => rfl
      | some x =>
        obtain ⟨q, t⟩ := x
        cases t with
        | operation c => exact absurd hht (hrest q c)
        | identifier s => rfl
        | constant n => rfl
        | lsquare => rfl
        | rsquare => rfl
        | assign => rfl
        | comma => rfl
        | semicolon => rfl
        | endOfInput => rfl
  | cons x pairs ih =>
    obtain ⟨⟨po, c⟩, ap, a⟩ := x
    intro fuel tk cp0 il ia ii ie ci ce lan rest ht hrest hsafe hfuel
    simp only [rhsTailToks, List.cons_append] at ht
    subst ht
    cases fuel with
    | zero => simp at hfuel
    | succ f =>
      simp only [Parser.parse_right_part_aux, List.head?_cons, Parser.next_token]
      cases a with
      | id s =>
        rw [parse_term_id _ ap s (rhsTailToks pairs ++ rest) rfl
          (hsafe s (by simp))]
        obtain ⟨cpf, hres⟩ := ih f (rhsTailToks pairs ++ rest) ap il ia ii
          (insertS ie s) ci ce lan rest rfl hrest
          (fun s2 hs2 => hsafe s2 (by simp [hs2]))
          (by simp only [List.length_cons] at hfuel; omega)
        exact ⟨cpf, hres⟩
      | num n =>
        rw [parse_term_num _ ap n (rhsTailToks pairs ++ rest) rfl]
        obtain ⟨cpf, hres⟩ := ih f (rhsTailToks pairs ++ rest) ap il ia ii ie
          ci (insertN ce n) lan rest rfl hrest
          (fun s2 hs2 => hsafe s2 (by simp [hs2]))
          (by simp only [List.length_cons] at hfuel; omega)
        exact ⟨cpf, hres⟩

theorem parse_right_part_aux_offend (pairs : List ((Nat × Char) × (Nat × Atom))) :
    ∀ (fuel : Nat) (tk : List (Nat × Token)) (cp0 il : Nat) (ia ii ie : List String)
      (ci ce : List Nat) (a : String) (po : Nat) (c : Char) (q : Nat)
      (rest2 : List (Nat × Token)),
      tk = rhsTailToks pairs ++ (po, Token.operation c) :: (q, Token.identifier a) :: rest2 →
      (∀ s, Atom.id s ∈ pairs.map (fun x => x.2.2) → s ≠ a) →
      pairs.length + 1 ≤ fuel →
      Parser.parse_right_part_aux fuel ⟨tk, cp0, il, ia, ii, ie, ci, ce, some a⟩ =
        .error (.semErr q "Нельзя использовать массив в правой части") := by
  induction pairs with
  | nil =>
    intro fuel tk cp0 il ia ii ie ci ce a po c q rest2 ht hsafe hfuel
    simp only [rhsTailToks, List.nil_append] at ht
    subst ht
    cases fuel with
    | zero => omega
    | succ f =>
      simp only [Parser.parse_right_part_aux, List.head?_cons, Parser.next_token]
      rw [parse_term_offend _ q a rest2 rfl rfl]
  | cons x pairs ih =>
    obtain ⟨⟨po2, c2⟩, ap, a2⟩ := x
    intro fuel tk cp0 il ia ii ie ci ce a po c q rest2 ht hsafe hfuel
    simp only [rhsTailToks, List.cons_append] at ht
    subst ht
    cases fuel with
    | zero => omega
    | succ f =>
      simp only [Parser.parse_right_part_aux, List.head?_cons, Parser.next_token]
      cases a2 with
      | id s =>
        rw [parse_term_id _ ap s
          (rhsTailToks pairs ++ (po, Token.operation c) :: (q, Token.identifier a) :: rest2) rfl
          (by
            intro hco
            injection hco with h2
            exact hsafe s (by simp) h2.symm)]
        exact ih f _ ap il ia ii (insertS ie s) ci ce a po c q rest2 rfl
          (fun s2 hs2 => hsafe s2 (by simp [hs2]))
          (by simp only [List.length_cons] at hfuel; omega)
      | num n =>
        rw [parse_term_num _ ap n
          (rhsTailToks pairs ++ (po, Token.operation c) :: (q, Token.identifier a) :: rest2) rfl]
        exact ih f _ ap il ia ii ie ci (insertN ce n) a po c q rest2 rfl
          (fun s2 hs2 => hsafe s2 (by simp [hs2]))
          (by simp only [List.length_cons] at hfuel; omega)


theorem parse_right_part_spec (ap : Nat) (a : Atom)
    (pairs : List ((Nat × Char) × (Nat × Atom))) (tk : List (Nat × Token))
    (cp0 il : Nat) (ia ii ie : List String) (ci ce : List Nat) (lan : Option String)
    (rest : List (Nat × Token))
    (ht : tk = (ap, atomTok a) :: (rhsTailToks pairs ++ rest))
    (hrest : ∀ q c, rest.head? ≠ some (q, Token.operation c))
    (hsafe : ∀ s, Atom.id s ∈ atomsOfRhs (ap, a) pairs → lan ≠ some s) :
    ∃ cpf, Parser.parse_right_part ⟨tk, cp0, il, ia, ii, ie, ci, ce, lan⟩ =
      .ok ⟨rest, cpf, il, ia, ii, collectIds ie (atomsOfRhs (ap, a) pairs),
        ci, collectNums ce (atomsOfRhs (ap, a) pairs), lan⟩ := by
  subst ht
  simp only [Parser.parse_right_part]
  cases a with
  | id s =>
    rw [parse_term_id _ ap s (rhsTailToks pairs ++ rest) rfl
      (hsafe s (by simp [atomsOfRhs]))]
    obtain ⟨cpf, hres⟩ := parse_right_part_aux_spec pairs
      ((rhsTailToks pairs ++ rest).length + 1) (rhsTailToks pairs ++ rest)
      ap il ia ii (insertS ie s) ci ce lan rest rfl hrest
      (fun s2 hs2 => hsafe s2 (by simp [atomsOfRhs, hs2]))
      (by rw [List.length_append, rhsTailToks_len]; omega)
    exact ⟨cpf, hres⟩
  | num n =>
    rw [parse_term_num _ ap n (rhsTailToks pairs ++ rest) rfl]
    obtain ⟨cpf, hres⟩ := parse_right_part_aux_spec pairs
      ((rhsTailToks pairs ++ rest).length + 1) (rhsTailToks pairs ++ rest)
      ap il ia ii ie ci (insertN ce n) lan rest rfl hrest
      (fun s2 hs2 => hsafe s2 (by simp [atomsOfRhs, hs2]))
      (by rw [List.length_append, rhsTailToks_len]; omega)
    exact ⟨cpf, hres⟩

theorem parse_left_part_bare (pA : Nat) (a : String) (tk : List (Nat × Token))
    (cp0 il : Nat) (ia ii ie : List String) (ci ce : List Nat) (lan : Option String)
    (rest : List (Nat × Token))
    (ht : tk = (pA, Token.identifier a) :: rest)
    (hrest : ∀ q, rest.head? ≠ some (q, Token.lsquare)) :
    Parser.parse_left_part ⟨tk, cp0, il, ia, ii, ie, ci, ce, lan⟩ =
      .ok ⟨rest, pA, il, ia, ii, insertS ie a, ci, ce, none⟩ := by
  subst ht
  simp only [Parser.parse_left_part]
  rw [parse_identifier_cons _ pA a rest rfl]
  dsimp only
  cases hht : rest.head? with
  | none => rfl
  | some x =>
    obtain ⟨q, t⟩ := x
    cases t with
    | lsquare => exact absurd hht (hrest q)
    | identifier s => rfl
    | constant n => rfl
    | rsquare => rfl
    | assign => rfl
    | comma => rfl
    | operation c => rfl
    | semicolon => rfl
    | endOfInput => rfl

theorem parse_left_part_indexed (pA pl : Nat) (a : String) (ap0 : Nat) (a0 : Atom)
    (items : List (Nat × Nat × Atom)) (pr : Nat) (tk : List (Nat × Token))
    (cp0 il : Nat) (ia ii ie : List String) (ci ce : List Nat) (lan : Option String)
    (rest : List (Nat × Token))
    (ht : tk = (pA, Token.identifier a) :: (pl, Token.lsquare) :: (ap0, atomTok a0)
      :: (idxTailToks items ++ (pr, Token.rsquare) :: rest)) :
    Parser.parse_left_part ⟨tk, cp0, il, ia, ii, ie, ci, ce, lan⟩ =
      .ok ⟨rest, pr, il, insertS ia a, collectIds ii (atomsOfIdx (ap0, a0) items), ie,
        collectNums ci (atomsOfIdx (ap0, a0) items), ce, some a⟩ := by
  subst ht
  simp only [Parser.parse_left_part]
  rw [parse_identifier_cons _ pA a _ rfl]
  dsimp only
  simp only [List.head?_cons, Parser.next_token, Parser.parse_index_list]
  have hrest2 : ∀ q, ((pr, Token.rsquare) :: rest).head? ≠ some (q, Token.comma) := by
    intro q hco
    simp only [List.head?_cons, Option.some.injEq, Prod.mk.injEq] at hco
    exact absurd hco.2 (by simp)
  cases a0 with
  | id s =>
    rw [parse_index_id _ ap0 s (idxTailToks items ++ (pr, Token.rsquare) :: rest) rfl]
    dsimp only
    obtain ⟨cpf, hres⟩ := parse_index_list_aux_spec items
      ((idxTailToks items ++ (pr, Token.rsquare) :: rest).length + 1)
      (idxTailToks items ++ (pr, Token.rsquare) :: rest) ap0 il
      (insertS ia a) (insertS ii s) ie ci ce (some a) ((pr, Token.rsquare) :: rest)
      rfl hrest2 (by rw [List.length_append, idxTailToks_len]; omega)
    rw [hres]
    dsimp only
    rw [expect_cons _ pr Token.rsquare rest [Token.rsquare] _ _ rfl (by decide)]
    rfl
  | num n =>
    rw [parse_index_num _ ap0 n (idxTailToks items ++ (pr, Token.rsquare) :: rest) rfl]
    dsimp only
    obtain ⟨cpf, hres⟩ := parse_index_list_aux_spec items
      ((idxTailToks items ++ (pr, Token.rsquare) :: rest).length + 1)
      (idxTailToks items ++ (pr, Token.rsquare) :: rest) ap0 il
      (insertS ia a) ii ie (insertN ci n) ce (some a) ((pr, Token.rsquare) :: rest)
      rfl hrest2 (by rw [List.length_append, idxTailToks_len]; omega)
    rw [hres]
    dsimp only
    rw [expect_cons _ pr Token.rsquare rest [Token.rsquare] _ _ rfl (by decide)]
    rfl


theorem mem_insertS (l : List String) (x s : String) :
    s ∈ insertS l x ↔ s ∈ l ∨ s = x := by
  unfold insertS
  split
  · next hmem =>
    constructor
    · exact fun h => Or.inl h
    · rintro (h | rfl)
      · exact h
      · exact hmem
  · simp

theorem mem_insertN (l : List Nat) (x s : Nat) :
    s ∈ insertN l x ↔ s ∈ l ∨ s = x := by
  unfold insertN
  split
  · next hmem =>
    constructor
    · exact fun h => Or.inl h
    · rintro (h | rfl)
      · exact h
      · exact hmem
  · simp

theorem mem_collectIds (atoms : List Atom) :
    ∀ (acc : List String) (s : String),
      s ∈ collectIds acc atoms ↔ s ∈ acc ∨ Atom.id s ∈ atoms := by
  induction atoms with
  | nil =>
    intro acc s
    simp [collectIds]
  | cons x rest ih =>
    intro acc s
    cases x with
    | id s2 =>
      simp only [collectIds]
      rw [ih, mem_insertS]
      simp only [List.mem_cons, Atom.id.injEq]
      tauto
    | num n =>
      simp only [collectIds]
      rw [ih]
      simp only [List.mem_cons]
      constructor
      · rintro (h | h)
        · exact Or.inl h
        · exact Or.inr (Or.inr h)
      · rintro (h | h | h)
        · exact Or.inl h
        · exact absurd h (by simp)
        · exact Or.inr h

theorem mem_collectNums (atoms : List Atom) :
    ∀ (acc : List Nat) (n : Nat),
      n ∈ collectNums acc atoms ↔ n ∈ acc ∨ Atom.num n ∈ atoms := by
  induction atoms with
  | nil =>
    intro acc n
    simp [collectNums]
  | cons x rest ih =>
    intro acc n
    cases x with
    | num n2 =>
      simp only [collectNums]
      rw [ih, mem_insertN]
      simp only [List.mem_cons, Atom.num.injEq]
      tauto
    | id s =>
      simp only [collectNums]
      rw [ih]
      simp only [List.mem_cons]
      constructor
      · rintro (h | h)
        · exact Or.inl h
        · exact Or.inr (Or.inr h)
      · rintro (h | h | h)
        · exact Or.inl h
        · exact absurd h (by simp)
        · exact Or.inr h

theorem insertS_ne_nil (l : List String) (x : String) : insertS l x ≠ [] := by
  unfold insertS
  split
  · next hmem => exact List.ne_nil_of_mem hmem
  · simp

theorem collectIds_ne_nil (atoms : List Atom) :
    ∀ (acc : List String), acc ≠ [] → collectIds acc atoms ≠ [] := by
  induction atoms with
  | nil => intro acc h; simpa [collectIds] using h
  | cons x rest ih =>
    intro acc h
    cases x with
    | id s2 => exact ih (insertS acc s2) (insertS_ne_nil acc s2)
    | num n => exact ih acc h

theorem parse_statement_bare (pA pa ps len : Nat) (a : String) (t0 : Nat × Atom)
    (pairs : List ((Nat × Char) × (Nat × Atom))) (ts : List (Nat × Token))
    (hts : ts = (pA, Token.identifier a) :: (pa, Token.assign) :: (t0.1, atomTok t0.2)
      :: (rhsTailToks pairs ++ [(ps, Token.semicolon)])) :
    ∃ cpf, Parser.parse (Parser.new ts len) =
      .ok ⟨[], cpf, len, [], [], collectIds (insertS [] a) (atomsOfRhs t0 pairs), [],
        collectNums [] (atomsOfRhs t0 pairs), none⟩ := by
  subst hts
  simp only [Parser.parse, Parser.new]
  rw [parse_left_part_bare pA a _ 0 len [] [] [] [] [] none _ rfl
    (by intro q h; simp at h)]
  dsimp only
  rw [expect_cons _ pa Token.assign _ [Token.assign] _ _ rfl (by decide)]
  dsimp only
  obtain ⟨cpf, hres⟩ := parse_right_part_spec t0.1 t0.2 pairs _ pa len [] []
    (insertS [] a) [] [] none [(ps, Token.semicolon)] rfl
    (by intro q c h; simp at h) (fun s _ => by simp)
  rw [hres]
  dsimp only
  rw [expect_cons _ ps Token.semicolon [] [Token.semicolon, Token.operation '+']
    _ _ rfl (by decide)]
  dsimp only
  simp only [Parser.next_token]
  exact ⟨exhaustedPosUpdate len, rfl⟩

theorem parse_statement_indexed (pA pl pr pa ps len : Nat) (a : String)
    (i0 : Nat × Atom) (items : List (Nat × Nat × Atom)) (t0 : Nat × Atom)
    (pairs : List ((Nat × Char) × (Nat × Atom))) (ts : List (Nat × Token))
    (hts : ts = (pA, Token.identifier a) :: (pl, Token.lsquare) :: (i0.1, atomTok i0.2)
      :: (idxTailToks items ++ (pr, Token.rsquare) :: (pa, Token.assign)
        :: (t0.1, atomTok t0.2) :: (rhsTailToks pairs ++ [(ps, Token.semicolon)])))
    (hsafe : ∀ s, Atom.id s ∈ atomsOfRhs t0 pairs → s ≠ a) :
    ∃ cpf, Parser.parse (Parser.new ts len) =
      .ok ⟨[], cpf, len, insertS [] a, collectIds [] (atomsOfIdx i0 items),
        collectIds [] (atomsOfRhs t0 pairs),
        collectNums [] (atomsOfIdx i0 items),
        collectNums [] (atomsOfRhs t0 pairs), some a⟩ := by
  subst hts
  simp only [Parser.parse, Parser.new]
  rw [parse_left_part_indexed pA pl a i0.1 i0.2 items pr _ 0 len [] [] [] [] [] none
    ((pa, Token.assign) :: (t0.1, atomTok t0.2)
      :: (rhsTailToks pairs ++ [(ps, Token.semicolon)])) rfl]
  dsimp only
  rw [expect_cons _ pa Token.assign _ [Token.assign] _ _ rfl (by decide)]
  dsimp only
  obtain ⟨cpf, hres⟩ := parse_right_part_spec t0.1 t0.2 pairs _ pa len
    (insertS [] a) (collectIds [] (atomsOfIdx i0 items)) []
    (collectNums [] (atomsOfIdx i0 items)) [] (some a) [(ps, Token.semicolon)] rfl
    (by intro q c h; simp at h)
    (fun s hs => by
      intro hco
      injection hco with h2
      exact hsafe s hs h2.symm)
  rw [hres]
  dsimp only
  rw [expect_cons _ ps Token.semicolon [] [Token.semicolon, Token.operation '+']
    _ _ rfl (by decide)]
  dsimp only
  simp only [Parser.next_token]
  exact ⟨exhaustedPosUpdate len, rfl⟩


theorem parse_statement_offend (pA pl pr pa q len : Nat) (a : String) (i0 : Nat × Atom)
    (items : List (Nat × Nat × Atom))
    (pre : Option ((Nat × Atom) × List ((Nat × Char) × (Nat × Atom)) × (Nat × Char)))
    (rest2 : List (Nat × Token)) (ts : List (Nat × Token))
    (hts : ts = (pA, Token.identifier a) :: (pl, Token.lsquare) :: (i0.1, atomTok i0.2)
      :: (idxTailToks items ++ (pr, Token.rsquare) :: (pa, Token.assign) ::
        (match pre with
         | none => (q, Token.identifier a) :: rest2
         | some (t0, pairs, po, c) => (t0.1, atomTok t0.2) :: (rhsTailToks pairs
             ++ (po, Token.operation c) :: (q, Token.identifier a) :: rest2))))
    (hpre : ∀ t0 pairs po c, pre = some (t0, pairs, po, c) →
      ∀ s, Atom.id s ∈ atomsOfRhs t0 pairs → s ≠ a) :
    Parser.parse (Parser.new ts len) =
      .error (.semErr q "Нельзя использовать массив в правой части") := by
  subst hts
  simp only [Parser.parse, Parser.new]
  rw [parse_left_part_indexed pA pl a i0.1 i0.2 items pr _ 0 len [] [] [] [] [] none
    _ rfl]
  dsimp only
  rw [expect_cons _ pa Token.assign _ [Token.assign] _ _ rfl (by decide)]
  dsimp only
  cases pre with
  | none =>
    simp only [Parser.parse_right_part]
    rw [parse_term_offend _ q a rest2 rfl rfl]
  | some x =>
    obtain ⟨t0, pairs, po, c⟩ := x
    have hsafe2 : ∀ s, Atom.id s ∈ atomsOfRhs t0 pairs → s ≠ a :=
      hpre t0 pairs po c rfl
    simp only [Parser.parse_right_part]
    obtain ⟨ap0, a0⟩ := t0
    cases a0 with
    | id s =>
      rw [parse_term_id _ ap0 s
        (rhsTailToks pairs ++ (po, Token.operation c) :: (q, Token.identifier a) :: rest2) rfl
        (by
          intro hco
          injection hco with h2
          exact hsafe2 s (by simp [atomsOfRhs]) h2.symm)]
      dsimp only
      rw [parse_right_part_aux_offend pairs _ _ ap0 len (insertS [] a)
        (collectIds [] (atomsOfIdx i0 items)) (insertS [] s)
        (collectNums [] (atomsOfIdx i0 items)) [] a po c q rest2 rfl
        (fun s2 hs2 => hsafe2 s2 (by simp [atomsOfRhs, hs2]))
        (by
          simp only [List.length_append, rhsTailToks_len, List.length_cons]
          omega)]
    | num n =>
      rw [parse_term_num _ ap0 n
        (rhsTailToks pairs ++ (po, Token.operation c) :: (q, Token.identifier a) :: rest2) rfl]
      dsimp only
      rw [parse_right_part_aux_offend pairs _ _ ap0 len (insertS [] a)
        (collectIds [] (atomsOfIdx i0 items)) []
        (collectNums [] (atomsOfIdx i0 items)) (insertN [] n) a po c q rest2 rfl
        (fun s2 hs2 => hsafe2 s2 (by simp [atomsOfRhs, hs2]))
        (by
          simp only [List.length_append, rhsTailToks_len, List.length_cons]
          omega)]


/-- C1 (amended): for every input that tokenizes successfully, whose left
side is an indexed target `A[...]`, and whose right-hand side consists of
terms chained by operators in which the first occurrence of the identifier
`A` (identifiers are case-canonicalized by the lexer) appears as a term
after zero or more non-`A` terms, the analysis fails with the semantic error
"array cannot appear on the right-hand side" positioned at the byte offset
of that occurrence. As frozen the claim is false because a lexical or
character error anywhere in the line preempts this check (tokenizing the
whole line precedes parsing) — see the counterexample. -/
theorem c1_array_on_rhs_amended (pA pl pr pa q : Nat) (a : String) (i0 : Nat × Atom)
    (items : List (Nat × Nat × Atom))
    (pre : Option ((Nat × Atom) × List ((Nat × Char) × (Nat × Atom)) × (Nat × Char)))
    (rest2 : List (Nat × Token)) (bs : List Nat) (ts : List (Nat × Token))
    (htok : tokenize bs = .ok ts)
    (hts : ts = (pA, Token.identifier a) :: (pl, Token.lsquare) :: (i0.1, atomTok i0.2)
      :: (idxTailToks items ++ (pr, Token.rsquare) :: (pa, Token.assign) ::
        (match pre with
         | none => (q, Token.identifier a) :: rest2
         | some (t0, pairs, po, c) => (t0.1, atomTok t0.2) :: (rhsTailToks pairs
             ++ (po, Token.operation c) :: (q, Token.identifier a) :: rest2))))
    (hpre : ∀ t0 pairs po c, pre = some (t0, pairs, po, c) →
      ∀ s, Atom.id s ∈ atomsOfRhs t0 pairs → s ≠ a) :
    analyzeParser bs = .error (.semErr q "Нельзя использовать массив в правой части") := by
  unfold analyzeParser
  rw [htok]
  exact parse_statement_offend pA pl pr pa q bs.length a i0 items pre rest2 ts hts hpre

/-- C1 witness: the amended statement applied to the concrete input
`A[1]:=B+A;`, failing at the occurrence of `A` at offset 8. -/
theorem c1_array_on_rhs_amended_witness :
    analyzeParser (strBytes "A[1]:=B+A;") =
      .error (.semErr 8 "Нельзя использовать массив в правой части") :=
  c1_array_on_rhs_amended 0 1 3 4 8 "A" (2, Atom.num 1) []
    (some ((6, Atom.id "B"), [], 7, '+')) [(9, Token.semicolon)]
    (strBytes "A[1]:=B+A;")
    [(0, Token.identifier "A"), (1, Token.lsquare), (2, Token.constant 1),
      (3, Token.rsquare), (4, Token.assign), (6, Token.identifier "B"),
      (7, Token.operation '+'), (8, Token.identifier "A"), (9, Token.semicolon)]
    rfl rfl
    (by
      intro t0 pairs po c heq s hs
      simp only [Option.some.injEq, Prod.mk.injEq] at heq
      obtain ⟨⟨rfl, rfl⟩, rfl, rfl, rfl⟩ := heq
      simp only [atomsOfRhs, List.map_nil, List.mem_singleton, Atom.id.injEq] at hs
      subst hs
      decide)


theorem not_isEmpty_of_ne_nil {α : Type} {l : List α} (h : l ≠ []) : (!l.isEmpty) = true := by
  cases l with
  | nil => exact absurd rfl h
  | cons x xs => rfl

/-- C3 (amended): for every input whose token stream conforms to the
statement grammar — bare or indexed target, nonempty operator-chained right
part, terminating semicolon — and whose right-hand terms avoid the left
array name, the analysis succeeds; both reports are present, the
identifiers report has at least one line, and every identifier and constant
occurrence is recorded in the role set matching its syntactic position. A
name occurring in several positions appears in one category per position
(not in exactly one overall), and the constants report is present but empty
when no constant occurs — both corrections forced by the counterexample. -/
theorem c3_grammar_classification (a : String) (pA pa ps : Nat)
    (tgt : Option (Nat × (Nat × Atom) × List (Nat × Nat × Atom) × Nat))
    (t0 : Nat × Atom) (pairs : List ((Nat × Char) × (Nat × Atom)))
    (bs : List Nat) (ts : List (Nat × Token))
    (hts : ts = (pA, Token.identifier a) ::
      ((match tgt with
        | none => []
        | some (pl, i0, items, pr) =>
          (pl, Token.lsquare) :: (i0.1, atomTok i0.2) :: (idxTailToks items ++ [(pr, Token.rsquare)]))
        ++ (pa, Token.assign) :: (t0.1, atomTok t0.2)
          :: (rhsTailToks pairs ++ [(ps, Token.semicolon)])))
    (htok : tokenize bs = .ok ts)
    (hsafe : ∀ pl i0 items pr, tgt = some (pl, i0, items, pr) →
      ∀ s, Atom.id s ∈ atomsOfRhs t0 pairs → s ≠ a) :
    ∃ p, analyzeParser bs = .ok p
      ∧ p.ids_array = (match tgt with | none => [] | some _ => [a])
      ∧ (∀ s, s ∈ p.ids_index ↔
          ∃ pl i0 items pr, tgt = some (pl, i0, items, pr) ∧ Atom.id s ∈ atomsOfIdx i0 items)
      ∧ (∀ s, s ∈ p.ids_expr ↔ (Atom.id s ∈ atomsOfRhs t0 pairs ∨ (tgt = none ∧ s = a)))
      ∧ (∀ n, n ∈ p.const_index ↔
          ∃ pl i0 items pr, tgt = some (pl, i0, items, pr) ∧ Atom.num n ∈ atomsOfIdx i0 items)
      ∧ (∀ n, n ∈ p.const_expr ↔ Atom.num n ∈ atomsOfRhs t0 pairs)
      ∧ p.left_array_name = (match tgt with | none => none | some _ => some a)
      ∧ p.finish hashOrd0 =
          (some (String.join (idsLines hashOrd0 p)), some (String.join (constsLines hashOrd0 p)))
      ∧ idsLines hashOrd0 p ≠ [] := by
  unfold analyzeParser
  rw [htok]
  cases tgt with
  | none =>
    simp only [List.nil_append] at hts
    obtain ⟨cpf, hp⟩ := parse_statement_bare pA pa ps bs.length a t0 pairs ts hts
    refine ⟨_, hp, rfl, ?_, ?_, ?_, ?_, rfl, ?_, ?_⟩
    · intro s
      simp
    · intro s
      rw [mem_collectIds, mem_insertS]
      simp only [List.not_mem_nil, false_or]
      tauto
    · intro n
      simp
    · intro n
      rw [mem_collectNums]
      simp
    · have hne : collectIds (insertS [] a) (atomsOfRhs t0 pairs) ≠ [] :=
        collectIds_ne_nil (atomsOfRhs t0 pairs) (insertS [] a) (insertS_ne_nil [] a)
      unfold Parser.finish
      rw [if_pos (by simp [not_isEmpty_of_ne_nil hne])]
    · have hne : collectIds (insertS [] a) (atomsOfRhs t0 pairs) ≠ [] :=
        collectIds_ne_nil (atomsOfRhs t0 pairs) (insertS [] a) (insertS_ne_nil [] a)
      simp only [idsLines, hashOrd0]
      intro hcontra
      rw [List.append_eq_nil, List.append_eq_nil] at hcontra
      exact hne (List.map_eq_nil_iff.mp hcontra.2)
  | some x =>
    obtain ⟨pl, i0, items, pr⟩ := x
    have hts2 : ts = (pA, Token.identifier a) :: (pl, Token.lsquare) :: (i0.1, atomTok i0.2)
        :: (idxTailToks items ++ (pr, Token.rsquare) :: (pa, Token.assign)
          :: (t0.1, atomTok t0.2) :: (rhsTailToks pairs ++ [(ps, Token.semicolon)])) := by
      simpa [List.cons_append, List.append_assoc] using hts
    obtain ⟨cpf, hp⟩ := parse_statement_indexed pA pl pr pa ps bs.length a i0 items t0
      pairs ts hts2 (hsafe pl i0 items pr rfl)
    refine ⟨_, hp, rfl, ?_, ?_, ?_, ?_, rfl, ?_, ?_⟩
    · intro s
      rw [mem_collectIds]
      simp only [List.not_mem_nil, false_or, Option.some.injEq]
      constructor
      · intro h
        exact ⟨pl, i0, items, pr, rfl, h⟩
      · rintro ⟨pl2, i02, items2, pr2, heq, h⟩
        simp only [Option.some.injEq, Prod.mk.injEq] at heq
        obtain ⟨rfl, rfl, rfl, rfl⟩ := heq
        exact h
    · intro s
      rw [mem_collectIds]
      simp
    · intro n
      rw [mem_collectNums]
      simp only [List.not_mem_nil, false_or]
      constructor
      · intro h
        exact ⟨pl, i0, items, pr, rfl, h⟩
      · rintro ⟨pl2, i02, items2, pr2, heq, h⟩
        simp only [Option.some.injEq, Prod.mk.injEq] at heq
        obtain ⟨rfl, rfl, rfl, rfl⟩ := heq
        exact h
    · intro n
      rw [mem_collectNums]
      simp
    · unfold Parser.finish
      rw [if_pos (by simp [not_isEmpty_of_ne_nil (insertS_ne_nil [] a)])]
    · simp only [idsLines, hashOrd0]
      intro hcontra
      rw [List.append_eq_nil, List.append_eq_nil] at hcontra
      exact insertS_ne_nil [] a (List.map_eq_nil_iff.mp hcontra.1.1)


/-- C3 witness: the amended statement at the concrete input `A[1]:=B;`
(indexed target `A`, index constant `1`, expression identifier `B`). -/
theorem c3_grammar_classification_witness :
    ∃ p, analyzeParser (strBytes "A[1]:=B;") = .ok p
      ∧ p.ids_array = ["A"]
      ∧ (∀ s, s ∈ p.ids_index ↔
          ∃ pl i0 items pr,
            (some (1, (2, Atom.num 1), [], 3) :
              Option (Nat × (Nat × Atom) × List (Nat × Nat × Atom) × Nat))
              = some (pl, i0, items, pr)
            ∧ Atom.id s ∈ atomsOfIdx i0 items)
      ∧ (∀ s, s ∈ p.ids_expr ↔ (Atom.id s ∈ atomsOfRhs (6, Atom.id "B") []
          ∨ ((some (1, (2, Atom.num 1), [], 3) :
              Option (Nat × (Nat × Atom) × List (Nat × Nat × Atom) × Nat)) = none ∧ s = "A")))
      ∧ (∀ n, n ∈ p.const_index ↔
          ∃ pl i0 items pr,
            (some (1, (2, Atom.num 1), [], 3) :
              Option (Nat × (Nat × Atom) × List (Nat × Nat × Atom) × Nat))
              = some (pl, i0, items, pr)
            ∧ Atom.num n ∈ atomsOfIdx i0 items)
      ∧ (∀ n, n ∈ p.const_expr ↔ Atom.num n ∈ atomsOfRhs (6, Atom.id "B") [])
      ∧ p.left_array_name = some "A"
      ∧ p.finish hashOrd0 =
          (some (String.join (idsLines hashOrd0 p)), some (String.join (constsLines hashOrd0 p)))
      ∧ idsLines hashOrd0 p ≠ [] :=
  c3_grammar_classification "A" 0 4 7 (some (1, (2, Atom.num 1), [], 3)) (6, Atom.id "B") []
    (strBytes "A[1]:=B;")
    [(0, Token.identifier "A"), (1, Token.lsquare), (2, Token.constant 1),
      (3, Token.rsquare), (4, Token.assign), (6, Token.identifier "B"), (7, Token.semicolon)]
    rfl rfl
    (by
      intro pl i0 items pr heq s hs
      simp only [atomsOfRhs, List.map_nil, List.mem_singleton, Atom.id.injEq] at hs
      subst hs
      decide)


/-! ### Inversion lemmas for successful parses (C5) -/

theorem expect_ok (p p2 : Parser) (exp : List Token) (m1 m2 : String) (t : Token)
    (h : p.expect exp m1 m2 = .ok (t, p2)) :
    ∃ q rest, p.tokens = (q, t) :: rest ∧ exp.contains t = true
      ∧ p2 = { p with tokens := rest, current_pos := q } := by
  cases htk : p.tokens with
  | nil =>
    simp only [Parser.expect, Parser.next_token, htk] at h
    exact absurd h (by simp)
  | cons x rest =>
    obtain ⟨q, t2⟩ := x
    simp only [Parser.expect, Parser.next_token, htk] at h
    by_cases hc : exp.contains t2 = true
    · rw [if_pos hc] at h
      simp only [Except.ok.injEq, Prod.mk.injEq] at h
      obtain ⟨rfl, rfl⟩ := h
      exact ⟨q, rest, rfl, hc, rfl⟩
    · rw [if_neg hc] at h
      exact absurd h (by simp)

theorem parse_identifier_ok (p p2 : Parser) (s : String)
    (h : p.parse_identifier = .ok (s, p2)) :
    ∃ q rest, p.tokens = (q, Token.identifier s) :: rest
      ∧ p2 = { p with tokens := rest, current_pos := q } := by
  cases htk : p.tokens with
  | nil =>
    simp only [Parser.parse_identifier, Parser.next_token, htk] at h
    exact absurd h (by simp)
  | cons x rest =>
    obtain ⟨q, t2⟩ := x
    simp only [Parser.parse_identifier, Parser.next_token, htk] at h
    cases t2 with
    | identifier s2 =>
      simp only [Except.ok.injEq, Prod.mk.injEq] at h
      obtain ⟨rfl, rfl⟩ := h
      exact ⟨q, rest, rfl, rfl⟩
    | constant n => exact absurd h (by simp)
    | lsquare => exact absurd h (by simp)
    | rsquare => exact absurd h (by simp)
    | comma => exact absurd h (by simp)
    | assign => exact absurd h (by simp)
    | operation c => exact absurd h (by simp)
    | semicolon => exact absurd h (by simp)
    | endOfInput => exact absurd h (by simp)

theorem parse_constant_ok (p p2 : Parser) (n : Nat)
    (h : p.parse_constant = .ok (n, p2)) :
    ∃ q rest, p.tokens = (q, Token.constant n) :: rest
      ∧ p2 = { p with tokens := rest, current_pos := q } := by
  cases htk : p.tokens with
  | nil =>
    simp only [Parser.parse_constant, Parser.next_token, htk] at h
    exact absurd h (by simp)
  | cons x rest =>
    obtain ⟨q, t2⟩ := x
    simp only [Parser.parse_constant, Parser.next_token, htk] at h
    cases t2 with
    | constant n2 =>
      simp only [Except.ok.injEq, Prod.mk.injEq] at h
      obtain ⟨rfl, rfl⟩ := h
      exact ⟨q, rest, rfl, rfl⟩
    | identifier s2 => exact absurd h (by simp)
    | lsquare => exact absurd h (by simp)
    | rsquare => exact absurd h (by simp)
    | comma => exact absurd h (by simp)
    | assign => exact absurd h (by simp)
    | operation c => exact absurd h (by simp)
    | semicolon => exact absurd h (by simp)
    | endOfInput => exact absurd h (by simp)

theorem parse_term_ok (p p2 : Parser) (h : p.parse_term = .ok p2) :
    ∃ q t rest, p.tokens = (q, t) :: rest ∧ p2.tokens = rest
      ∧ p2.input_len = p.input_len ∧ p2.left_array_name = p.left_array_name := by
  cases htk : p.tokens with
  | nil =>
    simp only [Parser.parse_term, htk, List.head?_nil, Parser.next_token] at h
    exact absurd h (by simp)
  | cons x rest =>
    obtain ⟨q, t2⟩ := x
    refine ⟨q, t2, rest, rfl, ?_⟩
    simp only [Parser.parse_term, htk, List.head?_cons] at h
    cases t2 with
    | identifier s2 =>
      rw [parse_identifier_cons p q s2 rest htk] at h
      dsimp only at h
      cases hl : p.left_array_name with
      | none =>
        rw [hl] at h
        dsimp only at h
        simp only [Except.ok.injEq] at h
        subst h
        exact ⟨rfl, rfl, rfl⟩
      | some arr =>
        rw [hl] at h
        dsimp only at h
        by_cases he : (s2 == arr) = true
        · rw [if_pos he] at h
          exact absurd h (by simp)
        · rw [if_neg he] at h
          simp only [Except.ok.injEq] at h
          subst h
          exact ⟨rfl, rfl, rfl⟩
    | constant n =>
      rw [parse_constant_cons p q n rest htk] at h
      dsimp only at h
      simp only [Except.ok.injEq] at h
      subst h
      exact ⟨rfl, rfl, rfl⟩
    | lsquare =>
      simp only [Parser.next_token, htk] at h
      exact absurd h (by simp)
    | rsquare =>
      simp only [Parser.next_token, htk] at h
      exact absurd h (by simp)
    | comma =>
      simp only [Parser.next_token, htk] at h
      exact absurd h (by simp)
    | assign =>
      simp only [Parser.next_token, htk] at h
      exact absurd h (by simp)
    | operation c =>
      simp only [Parser.next_token, htk] at h
      exact absurd h (by simp)
    | semicolon =>
      simp only [Parser.next_token, htk] at h
      exact absurd h (by simp)
    | endOfInput =>
      simp only [Parser.next_token, htk] at h
      exact absurd h (by simp)


theorem parse_index_ok (p p2 : Parser) (h : p.parse_index = .ok p2) :
    ∃ q t rest, p.tokens = (q, t) :: rest ∧ p2.tokens = rest := by
  cases htk : p.tokens with
  | nil =>
    simp only [Parser.parse_index, htk, List.head?_nil] at h
    exact absurd h (by simp)
  | cons x rest =>
    obtain ⟨q, t2⟩ := x
    refine ⟨q, t2, rest, rfl, ?_⟩
    simp only [Parser.parse_index, htk, List.head?_cons] at h
    cases t2 with
    | identifier s2 =>
      rw [parse_identifier_cons p q s2 rest htk] at h
      dsimp only at h
      simp only [Except.ok.injEq] at h
      subst h
      rfl
    | constant n =>
      rw [parse_constant_cons p q n rest htk] at h
      dsimp only at h
      simp only [Except.ok.injEq] at h
      subst h
      rfl
    | lsquare =>
      simp only [Parser.next_token, htk] at h
      exact absurd h (by simp)
    | rsquare =>
      simp only [Parser.next_token, htk] at h
      exact absurd h (by simp)
    | comma =>
      simp only [Parser.next_token, htk] at h
      exact absurd h (by simp)
    | assign =>
      simp only [Parser.next_token, htk] at h
      exact absurd h (by simp)
    | operation c =>
      simp only [Parser.next_token, htk] at h
      exact absurd h (by simp)
    | semicolon =>
      simp only [Parser.next_token, htk] at h
      exact absurd h (by simp)
    | endOfInput =>
      simp only [Parser.next_token, htk] at h
      exact absurd h (by simp)

theorem head_some_exists_tail {x : Nat × Token} {l : List (Nat × Token)}
    (h : l.head? = some x) : ∃ tail, l = x :: tail := by
  cases l with
  | nil => simp at h
  | cons y tail =>
    simp only [List.head?_cons, Option.some.injEq] at h
    exact ⟨tail, by rw [h]⟩

theorem parse_index_list_aux_sfx :
    ∀ (fuel : Nat) (p p2 : Parser),
      Parser.parse_index_list_aux fuel p = .ok p2 → p2.tokens <:+ p.tokens := by
  intro fuel
  induction fuel with
  | zero =>
    intro p p2 h
    simp only [Parser.parse_index_list_aux, Except.ok.injEq] at h
    subst h
    exact List.suffix_refl _
  | succ f ih =>
    intro p p2 h
    simp only [Parser.parse_index_list_aux] at h
    cases hht : p.tokens.head? with
    | none =>
      rw [hht] at h
      simp only [Except.ok.injEq] at h
      subst h
      exact List.suffix_refl _
    | some x =>
      obtain ⟨q, t⟩ := x
      rw [hht] at h
      cases t with
      | comma =>
        obtain ⟨tail, htk⟩ := head_some_exists_tail hht
        dsimp only at h
        simp only [Parser.next_token, htk] at h
        cases hpi : Parser.parse_index { p with tokens := tail, current_pos := q } with
        | error e =>
          rw [hpi] at h
          exact absurd h (by simp)
        | ok p3 =>
          rw [hpi] at h
          have hsfx := ih p3 p2 h
          obtain ⟨q2, t2, rest2, htk2, htl⟩ := parse_index_ok _ p3 hpi
          have h1 : p3.tokens <:+ tail := by
            rw [htl]
            have : (q2, t2) :: rest2 = { p with tokens := tail, current_pos := q }.tokens := htk2.symm
            simp only at this
            rw [← this]
            exact List.suffix_cons (q2, t2) rest2
          rw [htk]
          exact hsfx.trans (h1.trans (List.suffix_cons (q, Token.comma) tail))
      | identifier s =>
        simp only [Except.ok.injEq] at h
        subst h
        exact List.suffix_refl _
      | constant n =>
        simp only [Except.ok.injEq] at h
        subst h
        exact List.suffix_refl _
      | lsquare =>
        simp only [Except.ok.injEq] at h
        subst h
        exact List.suffix_refl _
      | rsquare =>
        simp only [Except.ok.injEq] at h
        subst h
        exact List.suffix_refl _
      | assign =>
        simp only [Except.ok.injEq] at h
        subst h
        exact List.suffix_refl _
      | operation c =>
        simp only [Except.ok.injEq] at h
        subst h
        exact List.suffix_refl _
      | semicolon =>
        simp only [Except.ok.injEq] at h
        subst h
        exact List.suffix_refl _
      | endOfInput =>
        simp only [Except.ok.injEq] at h
        subst h
        exact List.suffix_refl _


theorem parse_left_part_sfx (p p2 : Parser) (h : p.parse_left_part = .ok p2) :
    p2.tokens <:+ p.tokens := by
  simp only [Parser.parse_left_part] at h
  cases hpi : p.parse_identifier with
  | error e =>
    rw [hpi] at h
    exact absurd h (by simp)
  | ok v =>
    obtain ⟨s, p1⟩ := v
    rw [hpi] at h
    obtain ⟨q, rest, htk, hp1⟩ := parse_identifier_ok p p1 s hpi
    subst hp1
    dsimp only at h
    cases hh : rest.head? with
    | none =>
      rw [hh] at h
      simp only [Except.ok.injEq] at h
      subst h
      rw [htk]
      exact List.suffix_cons _ _
    | some x =>
      obtain ⟨q2, t2⟩ := x
      rw [hh] at h
      cases t2 with
      | lsquare =>
        obtain ⟨tail, htk2⟩ := head_some_exists_tail hh
        dsimp only at h
        simp only [Parser.next_token, htk2] at h
        cases hil : Parser.parse_index_list
            { p with
              tokens := tail
              current_pos := q2
              ids_array := insertS p.ids_array s
              left_array_name := some s } with
        | error e =>
          rw [hil] at h
          exact absurd h (by simp)
        | ok p5 =>
          rw [hil] at h
          dsimp only at h
          cases hex : p5.expect [Token.rsquare] "Ожидалось \x27]\x27"
              "Ожидалось \x27]\x27, но достигнут конец" with
          | error e =>
            rw [hex] at h
            exact absurd h (by simp)
          | ok v2 =>
            obtain ⟨t3, p6⟩ := v2
            rw [hex] at h
            simp only [Except.ok.injEq] at h
            subst h
            obtain ⟨q3, rest3, htk3, _hc, hp6⟩ := expect_ok p5 p6 _ _ _ t3 hex
            subst hp6
            have hsfx5 : p5.tokens <:+ tail := by
              simp only [Parser.parse_index_list] at hil
              cases hpi2 : Parser.parse_index
                  { p with
                    tokens := tail
                    current_pos := q2
                    ids_array := insertS p.ids_array s
                    left_array_name := some s } with
              | error e =>
                rw [hpi2] at hil
                exact absurd hil (by simp)
              | ok p4 =>
                rw [hpi2] at hil
                obtain ⟨q4, t4, rest4, htk4, htl4⟩ := parse_index_ok _ p4 hpi2
                have h4 : p4.tokens <:+ tail := by
                  rw [htl4]
                  simp only at htk4
                  rw [htk4]
                  exact List.suffix_cons (q4, t4) rest4
                exact (parse_index_list_aux_sfx _ p4 p5 hil).trans h4
            have : (q3, t3) :: rest3 <:+ tail := htk3 ▸ hsfx5
            have h7 : rest3 <:+ tail := (List.suffix_cons (q3, t3) rest3).trans this
            rw [htk, htk2]
            exact (h7.trans (List.suffix_cons (q2, Token.lsquare) tail)).trans
              (List.suffix_cons (q, Token.identifier s) ((q2, Token.lsquare) :: tail))
      | identifier s2 =>
        simp only [Except.ok.injEq] at h
        subst h
        rw [htk]
        exact List.suffix_cons _ _
      | constant n =>
        simp only [Except.ok.injEq] at h
        subst h
        rw [htk]
        exact List.suffix_cons _ _
      | rsquare =>
        simp only [Except.ok.injEq] at h
        subst h
        rw [htk]
        exact List.suffix_cons _ _
      | comma =>
        simp only [Except.ok.injEq] at h
        subst h
        rw [htk]
        exact List.suffix_cons _ _
      | assign =>
        simp only [Except.ok.injEq] at h
        subst h
        rw [htk]
        exact List.suffix_cons _ _
      | operation c =>
        simp only [Except.ok.injEq] at h
        subst h
        rw [htk]
        exact List.suffix_cons _ _
      | semicolon =>
        simp only [Except.ok.injEq] at h
        subst h
        rw [htk]
        exact List.suffix_cons _ _
      | endOfInput =>
        simp only [Except.ok.injEq] at h
        subst h
        rw [htk]
        exact List.suffix_cons _ _


theorem parse_right_part_aux_nop :
    ∀ (fuel : Nat) (p p2 : Parser), p.tokens.length ≤ fuel →
      Parser.parse_right_part_aux fuel p = .ok p2 →
      p2.tokens <:+ p.tokens ∧ ∀ q c, p2.tokens.head? ≠ some (q, Token.operation c) := by
  intro fuel
  induction fuel with
  | zero =>
    intro p p2 hlen h
    have htk : p.tokens = [] := List.eq_nil_of_length_eq_zero (Nat.le_zero.mp hlen)
    simp only [Parser.parse_right_part_aux, Except.ok.injEq] at h
    subst h
    refine ⟨List.suffix_refl _, ?_⟩
    intro q c
    rw [htk]
    simp
  | succ f ih =>
    intro p p2 hlen h
    simp only [Parser.parse_right_part_aux] at h
    cases hht : p.tokens.head? with
    | none =>
      rw [hht] at h
      simp only [Except.ok.injEq] at h
      subst h
      refine ⟨List.suffix_refl _, ?_⟩
      intro q c
      rw [hht]
      simp
    | some x =>
      obtain ⟨q, t⟩ := x
      rw [hht] at h
      cases t with
      | operation c =>
        obtain ⟨tail, htk⟩ := head_some_exists_tail hht
        dsimp only at h
        simp only [Parser.next_token, htk] at h
        cases hpt : Parser.parse_term { p with tokens := tail, current_pos := q } with
        | error e =>
          rw [hpt] at h
          exact absurd h (by simp)
        | ok p3 =>
          rw [hpt] at h
          obtain ⟨q2, t2, rest2, htk2, htl2, _, _⟩ := parse_term_ok _ p3 hpt
          simp only at htk2
          have hlen3 : p3.tokens.length ≤ f := by
            rw [htl2]
            have : tail.length = rest2.length + 1 := by
              rw [htk2]
              simp
            rw [htk] at hlen
            simp only [List.length_cons] at hlen
            omega
          obtain ⟨hsfx, hnop⟩ := ih p3 p2 hlen3 h
          refine ⟨?_, hnop⟩
          have h1 : p3.tokens <:+ tail := by
            rw [htl2, htk2]
            exact List.suffix_cons (q2, t2) rest2
          rw [htk]
          exact hsfx.trans (h1.trans (List.suffix_cons (q, Token.operation c) tail))
      | identifier s =>
        simp only [Except.ok.injEq] at h
        subst h
        refine ⟨List.suffix_refl _, ?_⟩
        intro q2 c2
        rw [hht]
        simp
      | constant n =>
        simp only [Except.ok.injEq] at h
        subst h
        refine ⟨List.suffix_refl _, ?_⟩
        intro q2 c2
        rw [hht]
        simp
      | lsquare =>
        simp only [Except.ok.injEq] at h
        subst h
        refine ⟨List.suffix_refl _, ?_⟩
        intro q2 c2
        rw [hht]
        simp
      | rsquare =>
        simp only [Except.ok.injEq] at h
        subst h
        refine ⟨List.suffix_refl _, ?_⟩
        intro q2 c2
        rw [hht]
        simp
      | comma =>
        simp only [Except.ok.injEq] at h
        subst h
        refine ⟨List.suffix_refl _, ?_⟩
        intro q2 c2
        rw [hht]
        simp
      | assign =>
        simp only [Except.ok.injEq] at h
        subst h
        refine ⟨List.suffix_refl _, ?_⟩
        intro q2 c2
        rw [hht]
        simp
      | semicolon =>
        simp only [Except.ok.injEq] at h
        subst h
        refine ⟨List.suffix_refl _, ?_⟩
        intro q2 c2
        rw [hht]
        simp
      | endOfInput =>
        simp only [Except.ok.injEq] at h
        subst h
        refine ⟨List.suffix_refl _, ?_⟩
        intro q2 c2
        rw [hht]
        simp

theorem parse_right_part_nop (p p2 : Parser) (h : p.parse_right_part = .ok p2) :
    p2.tokens <:+ p.tokens ∧ ∀ q c, p2.tokens.head? ≠ some (q, Token.operation c) := by
  simp only [Parser.parse_right_part] at h
  cases hpt : p.parse_term with
  | error e =>
    rw [hpt] at h
    exact absurd h (by simp)
  | ok p3 =>
    rw [hpt] at h
    obtain ⟨q, t, rest, htk, htl, _, _⟩ := parse_term_ok p p3 hpt
    obtain ⟨hsfx, hnop⟩ := parse_right_part_aux_nop (p3.tokens.length + 1) p3 p2
      (by omega) h
    refine ⟨?_, hnop⟩
    have h1 : p3.tokens <:+ p.tokens := by
      rw [htl, htk]
      exact List.suffix_cons (q, t) rest
    exact hsfx.trans h1

theorem parse_ok_last_semicolon (p0 pF : Parser) (h : p0.parse = .ok pF) :
    ∃ q, p0.tokens.getLast? = some (q, Token.semicolon) := by
  simp only [Parser.parse] at h
  cases hlp : p0.parse_left_part with
  | error e =>
    rw [hlp] at h
    exact absurd h (by simp)
  | ok p1 =>
    rw [hlp] at h
    dsimp only at h
    cases hex1 : p1.expect [Token.assign] "Ожидалось \x27:=\x27"
        "Ожидалось \x27:=\x27, но достигнут конец" with
    | error e =>
      rw [hex1] at h
      exact absurd h (by simp)
    | ok v1 =>
      obtain ⟨t1, p2⟩ := v1
      rw [hex1] at h
      dsimp only at h
      cases hrp : p2.parse_right_part with
      | error e =>
        rw [hrp] at h
        exact absurd h (by simp)
      | ok p3 =>
        rw [hrp] at h
        dsimp only at h
        cases hex2 : p3.expect [Token.semicolon, Token.operation '+']
            "Ожидалось либо \x27;\x27, либо операция"
            "Ожидалось \x27;\x27, но достигнут конец" with
        | error e =>
          rw [hex2] at h
          exact absurd h (by simp)
        | ok v2 =>
          obtain ⟨t2, p4⟩ := v2
          rw [hex2] at h
          dsimp only at h
          obtain ⟨q2, rest2, htk2, hc2, hp4⟩ := expect_ok p3 p4 _ _ _ t2 hex2
          obtain ⟨hsfx3, hnop3⟩ := parse_right_part_nop p2 p3 hrp
          have ht2 : t2 = Token.semicolon := by
            cases t2 with
            | semicolon => rfl
            | operation c =>
              exfalso
              exact hnop3 q2 c (by simp [htk2])
            | identifier s => exact Bool.noConfusion hc2
            | constant n => exact Bool.noConfusion hc2
            | lsquare => exact Bool.noConfusion hc2
            | rsquare => exact Bool.noConfusion hc2
            | comma => exact Bool.noConfusion hc2
            | assign => exact Bool.noConfusion hc2
            | endOfInput => exact Bool.noConfusion hc2
          subst ht2
          have hrest2 : rest2 = [] := by
            subst hp4
            cases hnt : rest2 with
            | nil => rfl
            | cons y ys =>
              simp only [Parser.next_token, hnt] at h
              exact absurd h (by simp)
          subst hrest2
          have hfinal : [(q2, Token.semicolon)] <:+ p0.tokens := by
            have h3 : p3.tokens <:+ p0.tokens := by
              obtain ⟨qe, reste, htke, _, hp2⟩ := expect_ok p1 p2 _ _ _ t1 hex1
              have hsfx1 : p1.tokens <:+ p0.tokens := parse_left_part_sfx p0 p1 hlp
              have h2sfx : p2.tokens <:+ p1.tokens := by
                subst hp2
                rw [htke]
                exact List.suffix_cons (qe, t1) reste
              exact hsfx3.trans (h2sfx.trans hsfx1)
            rw [htk2] at h3
            exact h3
          obtain ⟨pre, hpre⟩ := hfinal
          refine ⟨q2, ?_⟩
          rw [← hpre]
          exact List.getLast?_concat pre


/-- C5: the spec reports that some input is accepted with a stray trailing
'+' in place of the terminating ';'. This is false: although `Parser.parse`
names `Token.operation '+'` as an alternative expected terminator,
`parse_right_part` has already consumed every operation token at the head of
the stream, so no accepted token stream ends with a '+' operation token. -/
theorem c5_counterexample :
    ¬ ∃ (bs : List Nat) (ts : List (Nat × Token)) (p : Parser) (q : Nat),
        tokenize bs = .ok ts ∧ analyzeParser bs = .ok p ∧
        ts.getLast? = some (q, Token.operation '+') := by
  rintro ⟨bs, ts, p, q, htok, hana, hlast⟩
  simp only [analyzeParser, htok] at hana
  obtain ⟨q2, hq2⟩ := parse_ok_last_semicolon (Parser.new ts bs.length) p hana
  have hts : (Parser.new ts bs.length).tokens = ts := rfl
  rw [hts] at hq2
  rw [hq2] at hlast
  exact absurd hlast (by simp)

/-- C5 (amended): the `[Token.semicolon, Token.operation '+']` alternative in
`Parser.parse` is dead code: every input accepted by the analyzer tokenizes to
a stream whose last token is a semicolon. -/
theorem c5_terminator_semicolon (bs : List Nat) (p : Parser)
    (h : analyzeParser bs = .ok p) :
    ∃ ts q, tokenize bs = .ok ts ∧ ts.getLast? = some (q, Token.semicolon) := by
  cases htok : tokenize bs with
  | error e =>
    simp only [analyzeParser, htok] at h
    exact absurd h (by simp)
  | ok ts =>
    simp only [analyzeParser, htok] at h
    obtain ⟨q, hq⟩ := parse_ok_last_semicolon (Parser.new ts bs.length) p h
    exact ⟨ts, q, rfl, hq⟩

/-- Witness for C5 (amended) at the concrete accepted input "X:=Y;". -/
theorem c5_terminator_semicolon_witness :
    ∃ ts q, tokenize (strBytes "X:=Y;") = .ok ts ∧
      ts.getLast? = some (q, Token.semicolon) :=
  c5_terminator_semicolon (strBytes "X:=Y;")
    (Parser.mk [] 4 5 [] [] ["X", "Y"] [] [] none) (by decide)

end Taafl
